import Mathlib

/-!
Verification of the storage-engine core of the tinydb repository against its
natural-language specification.  The C++ sources are shallowly embedded as
executable Lean definitions: buckets, directories, replacer registries and
buffer-pool frames become structures, machine integers become `Nat`/`Int`
(page ids use `Int` so that the `INVALID_PAGE_ID = -1` sentinel is kept),
and every mutation is explicit state passing.  `std::hash<int>` is the
identity function in the standard library the repository builds against, so
hash-dependent definitions take the hash as a parameter `h` and concrete
runs instantiate it with the identity.
-/

namespace TinyDb

namespace EHT

/-- One bucket of the extendible hash table
(`ExtendibleHashTable::Bucket` in extendible_hash_table.cpp):
a local depth and the list of key/value pairs. -/
structure Bucket where
  depth : Nat
  items : List (Nat × Nat)
  deriving Repr, DecidableEq, Inhabited

/-- The extendible hash table state.  `dir` holds bucket identifiers
(indices into `store`), mirroring the `shared_ptr<Bucket>` entries of
`dir_`: several directory slots may reference the same bucket object. -/
structure Table where
  globalDepth : Nat
  bucketSize : Nat
  numBuckets : Nat
  store : List Bucket
  dir : List Nat
  deriving Repr, DecidableEq, Inhabited

/-- `ExtendibleHashTable` constructor: global depth 0, one empty bucket of
local depth 0. -/
def initTable (bucketSize : Nat) : Table :=
  { globalDepth := 0, bucketSize := bucketSize, numBuckets := 1,
    store := [⟨0, []⟩], dir := [0] }

/-- `IndexOf`: `hash(key) & ((1 << global_depth_) - 1)`. -/
def indexOf (h : Nat → Nat) (t : Table) (k : Nat) : Nat :=
  h k &&& (2 ^ t.globalDepth - 1)

/-- The key-update loop inside `Bucket::Insert`: if the key is present,
overwrite its value and report success (`some`), otherwise `none`. -/
def listUpdate (k v : Nat) : List (Nat × Nat) → Option (List (Nat × Nat))
  | [] => none
  | (k', v') :: rest =>
      if k' = k then some ((k', v) :: rest)
      else (listUpdate k v rest).map (fun l => (k', v') :: l)

/-- `Bucket::Insert`: update an existing key, else fail when the bucket is
full (`IsFullWithGuard`), else append.  `some` is the C++ `true` return
(with the updated bucket), `none` is `false`. -/
def bucketInsert (bucketSize : Nat) (b : Bucket) (k v : Nat) : Option Bucket :=
  match listUpdate k v b.items with
  | some items => some { b with items := items }
  | none =>
      if bucketSize ≤ b.items.length then none
      else some { b with items := b.items ++ [(k, v)] }

/-- `Bucket::Find`. -/
def bucketFind (b : Bucket) (k : Nat) : Option Nat :=
  (b.items.find? (fun p => p.1 = k)).map (fun p => p.2)

/-- `Expansion`: increment the global depth and append, for every new slot
`j` in `[2^G, 2^(G+1))`, the entry `dir_[j - 2^G]`. -/
def expansion (t : Table) : Table :=
  let oldSize := 2 ^ t.globalDepth
  { t with
    globalDepth := t.globalDepth + 1,
    dir := t.dir ++ (List.range oldSize).map (fun i => t.dir.getD i 0) }

/-- The redistribution loop at the end of `RedistributeBucket`: each item of
the drained bucket is re-inserted through `dir_[IndexOf(k)]->Insert(k, v)`;
the boolean result is discarded, exactly as in the source. -/
def reinsert (h : Nat → Nat) : Table → List (Nat × Nat) → Table
  | t, [] => t
  | t, (k, v) :: rest =>
      let idx := indexOf h t k
      let bid := t.dir.getD idx 0
      let t' :=
        match bucketInsert t.bucketSize (t.store.getD bid default) k v with
        | some b' => { t with store := t.store.set bid b' }
        | none => t
      reinsert h t' rest

/-- `RedistributeBucket(idx)`:
reads `old_depth` from `dir_[idx]`, takes `old_size = 1 << (G-1)` and
`old_idx = idx & ((1 << old_depth) - 1)`, resets the slot
`old_idx + old_size` to a fresh bucket of depth `old_depth`, increments the
depths of the old and the fresh bucket, rewires only the two slots
`old_idx` and `old_idx + (1 << old_depth)` in its `i = 0, 1` loop, bumps
the bucket count, drains the old bucket (`GetItems` returns a reference
that is moved from) and re-inserts its items. -/
def redistribute (h : Nat → Nat) (t : Table) (idx : Nat) : Table :=
  let oldDepth := (t.store.getD (t.dir.getD idx 0) default).depth
  let oldSize := 2 ^ (t.globalDepth - 1)
  let oldIdx := idx &&& (2 ^ oldDepth - 1)
  let oldBid := t.dir.getD oldIdx 0
  let newBid := t.store.length
  let store1 := t.store ++ [⟨oldDepth, []⟩]
  let dir1 := t.dir.set (oldIdx + oldSize) newBid
  let oldB := store1.getD oldBid default
  let newB := store1.getD newBid default
  let store2 := (store1.set oldBid { oldB with depth := oldB.depth + 1 }).set
      newBid { newB with depth := newB.depth + 1 }
  let dir2 := (dir1.set oldIdx oldBid).set (oldIdx + 2 ^ oldDepth) newBid
  let items := (store2.getD oldBid default).items
  let store3 := store2.set oldBid { (store2.getD oldBid default) with items := [] }
  reinsert h
    { t with store := store3, dir := dir2, numBuckets := t.numBuckets + 1 }
    items

/-- The `while (true)` retry loop of `ExtendibleHashTable::Insert`, made
total with explicit fuel: `some` is a completed call, `none` means the loop
was still running when the fuel ran out. -/
def insertLoop (h : Nat → Nat) : Nat → Table → Nat → Nat → Option Table
  | 0, _, _, _ => none
  | fuel + 1, t, k, v =>
      let idx := indexOf h t k
      let bid := t.dir.getD idx 0
      match bucketInsert t.bucketSize (t.store.getD bid default) k v with
      | some b' => some { t with store := t.store.set bid b' }
      | none =>
          let t' :=
            if (t.store.getD bid default).depth = t.globalDepth then
              redistribute h (expansion t) idx
            else
              redistribute h t idx
          insertLoop h fuel t' k v

/-- Run a sequence of inserts (key used as its own value), propagating
failure of any call to terminate within the fuel. -/
def runInserts (h : Nat → Nat) (fuel : Nat) (t : Table) : List Nat → Option Table
  | [] => some t
  | k :: rest =>
      match insertLoop h fuel t k k with
      | some t' => runInserts h fuel t' rest
      | none => none

/-- Decidable check of the directory invariant claimed by the spec: for
every directory index `i`, every key `k` stored in `dir[i]` satisfies
`hash(k) & ((1 << local_depth(dir[i])) - 1) == i & ((1 << local_depth(dir[i])) - 1)`. -/
def dirInvariant (h : Nat → Nat) (t : Table) : Bool :=
  (List.range t.dir.length).all (fun i =>
    let b := t.store.getD (t.dir.getD i 0) default
    b.items.all (fun p =>
      h p.1 &&& (2 ^ b.depth - 1) = i &&& (2 ^ b.depth - 1)))

/-- The table obtained by inserting 0, 1, 2, 4, 3 (identity hash, bucket
size 1) into an empty table. -/
def c3Run : Option Table := runInserts (fun k => k) 10 (initTable 1) [0, 1, 2, 4, 3]

/-- A state of the table from which `Insert (fun k => k) _ 15` can never
leave its retry loop: the slot `dir[15]` holds a full bucket of local
depth 2 that does not contain 15, while index 15 masked to that depth is 3
and `dir[3]` holds a different, empty bucket, so every iteration splits
the bucket at `dir[3]` and leaves slot 15 untouched. -/
def Stuck (t : Table) : Prop :=
  t.globalDepth = 4 ∧ t.bucketSize = 1 ∧ t.dir.length = 16 ∧
  t.dir.getD 15 0 < t.store.length ∧ t.dir.getD 3 0 < t.store.length ∧
  t.dir.getD 15 0 ≠ t.dir.getD 3 0 ∧
  t.store.getD (t.dir.getD 15 0) default = ⟨2, [(1, 1)]⟩ ∧
  (t.store.getD (t.dir.getD 3 0) default).items = []

theorem getD_set_ne {α : Type} (l : List α) (i j : Nat) (a d : α) (h : i ≠ j) :
    (l.set i a).getD j d = l.getD j d := by
  induction l generalizing i j with
  | nil => simp
  | cons x xs ih =>
      cases i with
      | zero =>
          cases j with
          | zero => exact absurd rfl h
          | succ j => simp [List.getD]
      | succ i =>
          cases j with
          | zero => simp [List.getD]
          | succ j =>
              simpa [List.getD] using ih i j (fun hh => h (by rw [hh]))

theorem getD_set_self {α : Type} (l : List α) (i : Nat) (a d : α) (h : i < l.length) :
    (l.set i a).getD i d = a := by
  induction l generalizing i with
  | nil => simp at h
  | cons x xs ih =>
      cases i with
      | zero => simp [List.getD]
      | succ i =>
          simpa [List.getD] using ih i (by simpa using h)

theorem getD_append_last {α : Type} (l : List α) (x d : α) :
    (l ++ [x]).getD l.length d = x := by
  simp [List.getD_append_right l [x] d l.length le_rfl]

theorem reinsert_nil (h : Nat → Nat) (t : Table) : reinsert h t [] = t := rfl

/-- One failing iteration of the retry loop from a stuck state yields a
stuck state again. -/
theorem stuck_redistribute {t : Table} (ht : Stuck t) :
    Stuck (redistribute (fun k => k) t 15) := by
  obtain ⟨hG, hbs, hlen, hb, hc, hbc, hsb, hsc⟩ := ht
  simp only [List.getD_eq_getElem?_getD] at hsb hsc hb hc hbc
  set c := t.dir[3]?.getD 0 with hcdef
  set b := t.dir[15]?.getD 0 with hbdef
  have hLc : t.store.length ≠ c := Nat.ne_of_gt hc
  have hLb : t.store.length ≠ b := Nat.ne_of_gt hb
  have e1 : (t.store ++ [(⟨2, []⟩ : Bucket)])[c]? = t.store[c]? :=
    List.getElem?_append_left hc
  have e2 : (t.store ++ [(⟨2, []⟩ : Bucket)])[b]? = t.store[b]? :=
    List.getElem?_append_left hb
  have hc1 : c < ((t.store ++ [(⟨2, []⟩ : Bucket)])).length := by
    simp only [List.length_append, List.length_cons, List.length_nil]
    omega
  have e4 : (((t.store ++ [(⟨2, []⟩ : Bucket)]).set c
      (⟨(t.store[c]?.getD default).depth + 1, []⟩ : Bucket)).set t.store.length
      (⟨3, []⟩ : Bucket))[c]? =
      some ⟨(t.store[c]?.getD default).depth + 1, []⟩ := by
    rw [List.getElem?_set_ne hLc, List.getElem?_set_self hc1]
  have hT : redistribute (fun k => k) t 15 =
      { globalDepth := 4, bucketSize := t.bucketSize, numBuckets := t.numBuckets + 1,
        store := ((((t.store ++ [(⟨2, []⟩ : Bucket)]).set c
            (⟨(t.store[c]?.getD default).depth + 1, []⟩ : Bucket)).set t.store.length
            (⟨3, []⟩ : Bucket)).set c
            (⟨(t.store[c]?.getD default).depth + 1, []⟩ : Bucket)),
        dir := ((t.dir.set 11 t.store.length).set 3 c).set 7 t.store.length } := by
    simp only [redistribute, List.getD_eq_getElem?_getD, hG, hsb]
    norm_num
    rw [(by decide : (15 : Nat) &&& 3 = 3)]
    rw [← hcdef]
    simp only [e1, hsc, e4, Option.getD_some, reinsert_nil]
  rw [hT]
  simp only [Stuck, List.getD_eq_getElem?_getD]
  have d15 : (((t.dir.set 11 t.store.length).set 3 c).set 7 t.store.length)[15]? =
      t.dir[15]? := by
    rw [List.getElem?_set_ne (by decide : (7 : Nat) ≠ 15),
      List.getElem?_set_ne (by decide : (3 : Nat) ≠ 15),
      List.getElem?_set_ne (by decide : (11 : Nat) ≠ 15)]
  have d3 : (((t.dir.set 11 t.store.length).set 3 c).set 7 t.store.length)[3]? =
      some c := by
    rw [List.getElem?_set_ne (by decide : (7 : Nat) ≠ 3),
      List.getElem?_set_self (by simp [hlen])]
  have s3b : ((((t.store ++ [(⟨2, []⟩ : Bucket)]).set c
      (⟨(t.store[c]?.getD default).depth + 1, []⟩ : Bucket)).set t.store.length
      (⟨3, []⟩ : Bucket)).set c
      (⟨(t.store[c]?.getD default).depth + 1, []⟩ : Bucket))[b]? = t.store[b]? := by
    rw [List.getElem?_set_ne (Ne.symm hbc), List.getElem?_set_ne hLb,
      List.getElem?_set_ne (Ne.symm hbc), e2]
  have s3c : ((((t.store ++ [(⟨2, []⟩ : Bucket)]).set c
      (⟨(t.store[c]?.getD default).depth + 1, []⟩ : Bucket)).set t.store.length
      (⟨3, []⟩ : Bucket)).set c
      (⟨(t.store[c]?.getD default).depth + 1, []⟩ : Bucket))[c]? =
      some ⟨(t.store[c]?.getD default).depth + 1, []⟩ := by
    rw [List.getElem?_set_self (by simpa using hc1)]
  have hlen3 : ((((t.store ++ [(⟨2, []⟩ : Bucket)]).set c
      (⟨(t.store[c]?.getD default).depth + 1, []⟩ : Bucket)).set t.store.length
      (⟨3, []⟩ : Bucket)).set c
      (⟨(t.store[c]?.getD default).depth + 1, []⟩ : Bucket)).length =
      t.store.length + 1 := by
    simp
  refine ⟨trivial, hbs, by simp [hlen], ?_, ?_, ?_, ?_, ?_⟩
  · rw [d15, ← hbdef, hlen3]
    omega
  · rw [d3, Option.getD_some, hlen3]
    omega
  · rw [d15, ← hbdef, d3, Option.getD_some]
    exact hbc
  · rw [d15, ← hbdef, s3b]
    exact hsb
  · rw [d3, Option.getD_some, s3c, Option.getD_some]

/-- From a stuck state, the `Insert` retry loop never completes, for any
amount of fuel. -/
theorem stuck_insertLoop :
    ∀ (fuel : Nat) (t : Table), Stuck t →
      insertLoop (fun k => k) fuel t 15 15 = none := by
  intro fuel
  induction fuel with
  | zero => intro t _; rfl
  | succ n ih =>
      intro t ht
      obtain ⟨hG, hbs, hlen, hb, hc, hbc, hsb, hsc⟩ := ht
      have hidx : indexOf (fun k => k) t 15 = 15 := by
        simp [indexOf, hG]
      have hins :
          bucketInsert t.bucketSize
            (t.store.getD (t.dir.getD 15 0) default) 15 15 = none := by
        rw [hbs, hsb]; decide
      simp only [insertLoop, hidx, hins]
      rw [hsb]
      rw [if_neg (by rw [hG]; decide)]
      exact ih _ (stuck_redistribute ⟨hG, hbs, hlen, hb, hc, hbc, hsb, hsc⟩)

/-- C3: the claimed directory invariant is violated by the code.  Inserting
the keys 0, 1, 2, 4, 3 (identity hash, bucket size 1) completes, yet in the
resulting table the invariant
`hash(k) & ((1<<local_depth(dir[i]))-1) == i & ((1<<local_depth(dir[i]))-1)`
fails: directory slot 7 still references the bucket of local depth 2 whose
key list is `[(1, 1)]`, and `1 & 3 = 1 ≠ 3 = 7 & 3`.  The split of the
depth-1 bucket rewired only slots 1, 3 and 5 of the four slots 1, 3, 5, 7
that referenced it, with slot 5 (whose bit 1 is 0) sent to the new bucket. -/
theorem c3_directory_invariant_violated :
    c3Run.map (dirInvariant (fun k => k)) = some false ∧
    c3Run.map (fun t =>
        ((t.store.getD (t.dir.getD 7 0) default).depth,
         (t.store.getD (t.dir.getD 7 0) default).items)) = some (2, [(1, 1)]) :=
  ⟨by decide, by decide⟩

/-- The table reached by inserting 0, 1, 8 (identity hash, bucket size 1);
inserting 15 into it never terminates. -/
def c7Base : Table :=
  match runInserts (fun k => k) 10 (initTable 1) [0, 1, 8] with
  | some t => t
  | none => initTable 1

/-- C7: `ExtendibleHashTable::Insert` does not always terminate.  After
inserting 0, 1, 8 (identity hash, bucket size 1), the call `Insert(15, _)`
loops forever: for every amount of fuel, the retry loop is still running.
Each failing iteration reads local depth 2 from the full bucket at
`dir_[15]`, masks the index down to `old_idx = 3`, and splits the unrelated
empty bucket at `dir_[3]`, never changing slot 15, so the local depth of
the bucket the key hashes to does not increase. -/
theorem c7_insert_nonterminating (fuel : Nat) :
    insertLoop (fun k => k) fuel c7Base 15 15 = none := by
  cases fuel with
  | zero => rfl
  | succ n =>
      have h1 : insertLoop (fun k => k) (n + 1) c7Base 15 15 =
          insertLoop (fun k => k) n (redistribute (fun k => k) c7Base 15) 15 15 := rfl
      rw [h1]
      exact stuck_insertLoop n _
        ⟨by decide, by decide, by decide, by decide, by decide, by decide,
         by decide, by decide⟩

end EHT

namespace LRUK

/-- Association-list lookup, modelling `std::unordered_map`/`std::map`
reads (`operator[]` reads are `(alookup f m).getD default`). -/
def alookup {α : Type} (f : Nat) : List (Nat × α) → Option α
  | [] => none
  | (g, v) :: rest => if g = f then some v else alookup f rest

/-- Association-list update-or-add, modelling map `operator[]` writes. -/
def aset {α : Type} (f : Nat) (v : α) : List (Nat × α) → List (Nat × α)
  | [] => [(f, v)]
  | (g, w) :: rest => if g = f then (g, v) :: rest else (g, w) :: aset f v rest

/-- Association-list erase, modelling map `erase` (keys are unique, so
dropping every pair with the key is the same operation). -/
def aerase {α : Type} (f : Nat) : List (Nat × α) → List (Nat × α)
  | [] => []
  | (g, w) :: rest => if g = f then aerase f rest else (g, w) :: aerase f rest

theorem alookup_aset_self {α : Type} (f : Nat) (v : α) (l : List (Nat × α)) :
    alookup f (aset f v l) = some v := by
  induction l with
  | nil => simp [aset, alookup]
  | cons p rest ih =>
      obtain ⟨g, w⟩ := p
      by_cases hg : g = f
      · simp [aset, alookup, hg]
      · simp [aset, alookup, hg, ih]

theorem alookup_aset_ne {α : Type} (g f : Nat) (v : α) (l : List (Nat × α))
    (h : f ≠ g) : alookup g (aset f v l) = alookup g l := by
  induction l with
  | nil => simp [aset, alookup, h]
  | cons p rest ih =>
      obtain ⟨g', w⟩ := p
      by_cases hg : g' = f
      · simp [aset, alookup, hg, h, Ne.symm h]
      · by_cases hg2 : g' = g <;>
          simp [aset, alookup, hg, hg2, h, Ne.symm h, ih]

theorem alookup_aerase_self {α : Type} (f : Nat) (l : List (Nat × α)) :
    alookup f (aerase f l) = none := by
  induction l with
  | nil => rfl
  | cons p rest ih =>
      obtain ⟨g, w⟩ := p
      by_cases hg : g = f
      · simpa [aerase, hg] using ih
      · simpa [aerase, alookup, hg] using ih

theorem alookup_aerase_ne {α : Type} (g f : Nat) (l : List (Nat × α))
    (h : f ≠ g) : alookup g (aerase f l) = alookup g l := by
  induction l with
  | nil => rfl
  | cons p rest ih =>
      obtain ⟨g', w⟩ := p
      by_cases hg : g' = f
      · have hgg : g' ≠ g := by rw [hg]; exact h
        simpa [aerase, alookup, hg, hgg, h, Ne.symm h] using ih
      · by_cases hg2 : g' = g <;>
          simp [aerase, alookup, hg, hg2, h, Ne.symm h, ih]

/-- The strict ordering of `std::set<Node>`.  The comparator lives in the
missing header; modelled from the spec: within a set the frame with the
oldest timestamp comes first, ties broken by frame id. -/
def lexLt (a b : Nat × Nat) : Prop :=
  a.1 < b.1 ∨ (a.1 = b.1 ∧ a.2 < b.2)

instance (a b : Nat × Nat) : Decidable (lexLt a b) := by
  unfold lexLt; infer_instance

theorem lexLt_trans {a b c : Nat × Nat} (h1 : lexLt a b) (h2 : lexLt b c) :
    lexLt a c := by
  rcases h1 with h1 | ⟨h1, h1'⟩ <;> rcases h2 with h2 | ⟨h2, h2'⟩ <;>
    simp only [lexLt] <;> omega

theorem lexLt_irrefl (a : Nat × Nat) : ¬ lexLt a a := by
  simp [lexLt]

theorem lexLt_of_not {a b : Nat × Nat} (h1 : ¬ lexLt a b) (h2 : a ≠ b) :
    lexLt b a := by
  simp only [lexLt, not_or, not_and, not_lt] at h1
  rcases Nat.lt_trichotomy b.1 a.1 with h | h | h
  · exact Or.inl h
  · refine Or.inr ⟨h, ?_⟩
    rcases Nat.lt_trichotomy b.2 a.2 with h' | h' | h'
    · exact h'
    · exact absurd (Prod.ext h.symm h'.symm) h2
    · omega
  · omega

/-- `std::set::insert` on the sorted node list. -/
def setInsert (n : Nat × Nat) : List (Nat × Nat) → List (Nat × Nat)
  | [] => [n]
  | m :: rest =>
      if lexLt n m then n :: m :: rest
      else if n = m then m :: rest
      else m :: setInsert n rest

/-- `std::set::erase` on the sorted node list. -/
def setErase (n : Nat × Nat) : List (Nat × Nat) → List (Nat × Nat)
  | [] => []
  | m :: rest => if n = m then rest else m :: setErase n rest

theorem mem_setInsert (x n : Nat × Nat) (l : List (Nat × Nat)) :
    x ∈ setInsert n l ↔ x = n ∨ x ∈ l := by
  induction l with
  | nil => simp [setInsert]
  | cons m rest ih =>
      simp only [setInsert]
      split_ifs with h1 h2
      · simp [List.mem_cons]
      · subst h2
        simp only [List.mem_cons]
        tauto
      · simp only [List.mem_cons, ih]
        tauto

theorem pairwise_setInsert (n : Nat × Nat) (l : List (Nat × Nat))
    (hs : List.Pairwise lexLt l) : List.Pairwise lexLt (setInsert n l) := by
  induction l with
  | nil => simp [setInsert]
  | cons m rest ih =>
      obtain ⟨hm, hrest⟩ := List.pairwise_cons.mp hs
      simp only [setInsert]
      split_ifs with h1 h2
      · refine List.pairwise_cons.mpr ⟨?_, hs⟩
        intro x hx
        rcases List.mem_cons.mp hx with rfl | hx
        · exact h1
        · exact lexLt_trans h1 (hm x hx)
      · exact hs
      · refine List.pairwise_cons.mpr ⟨?_, ih hrest⟩
        intro x hx
        rcases (mem_setInsert x n rest).mp hx with rfl | hx
        · exact lexLt_of_not h1 h2
        · exact hm x hx

theorem setErase_sublist (n : Nat × Nat) (l : List (Nat × Nat)) :
    (setErase n l).Sublist l := by
  induction l with
  | nil => simp [setErase]
  | cons m rest ih =>
      by_cases h : n = m
      · simp only [setErase, if_pos h]
        exact List.sublist_cons_self m rest
      · simpa [setErase, h] using List.Sublist.cons₂ m ih

theorem pairwise_setErase (n : Nat × Nat) (l : List (Nat × Nat))
    (hs : List.Pairwise lexLt l) : List.Pairwise lexLt (setErase n l) :=
  hs.sublist (setErase_sublist n l)

theorem mem_setErase (x n : Nat × Nat) (l : List (Nat × Nat))
    (hs : List.Pairwise lexLt l) : x ∈ setErase n l ↔ x ∈ l ∧ x ≠ n := by
  induction l with
  | nil => simp [setErase]
  | cons m rest ih =>
      obtain ⟨hm, hrest⟩ := List.pairwise_cons.mp hs
      simp only [setErase]
      split_ifs with h
      · subst h
        simp only [List.mem_cons]
        constructor
        · intro hx
          refine ⟨Or.inr hx, ?_⟩
          rintro rfl
          exact lexLt_irrefl x (hm x hx)
        · rintro ⟨rfl | hx, hne⟩
          · exact absurd rfl hne
          · exact hx
      · simp only [List.mem_cons, ih hrest]
        constructor
        · rintro (rfl | ⟨hx, hne⟩)
          · exact ⟨Or.inl rfl, fun hh => h hh.symm⟩
          · exact ⟨Or.inr hx, hne⟩
        · rintro ⟨rfl | hx, hne⟩
          · exact Or.inl rfl
          · exact Or.inr ⟨hx, hne⟩

/-- The `LRUKReplacer` state (lru_k_replacer.cpp).  `std::set<Node>` members
are sorted `(timestamp, frame id)` lists; the maps are association lists;
`clock` models `current_timestamp_`, with `GetTimeStamp()` modelled as a
strictly increasing counter (the wall-clock nanosecond timestamps the code
reads are strictly increasing across calls). -/
structure Replacer where
  k : Nat
  replacerSize : Nat
  curSize : Nat
  frameCnt : List (Nat × Nat)
  evitable : List (Nat × Bool)
  frameTime : List (Nat × Nat)
  infSet : List (Nat × Nat)
  kthSet : List (Nat × Nat)
  clock : Nat
  deriving Repr, DecidableEq, Inhabited

/-- The `LRUKReplacer(num_frames, k)` constructor. -/
def initReplacer (numFrames k : Nat) : Replacer :=
  { k := k, replacerSize := numFrames, curSize := 0, frameCnt := [],
    evitable := [], frameTime := [], infSet := [], kthSet := [], clock := 0 }

/-- `InsertToSet`: build the node from `frame_time_` and put it in the
kth-set when the access count has reached `k_`, else in the inf-set. -/
def insertToSet (r : Replacer) (f : Nat) : Replacer :=
  let node := ((alookup f r.frameTime).getD 0, f)
  if r.k ≤ (alookup f r.frameCnt).getD 0 then
    { r with kthSet := setInsert node r.kthSet }
  else
    { r with infSet := setInsert node r.infSet }

/-- `RemoveFromSet`: erase the frame's node from the set chosen by its
access count. -/
def removeFromSet (r : Replacer) (f : Nat) : Replacer :=
  let node := ((alookup f r.frameTime).getD 0, f)
  if r.k ≤ (alookup f r.frameCnt).getD 0 then
    { r with kthSet := setErase node r.kthSet }
  else
    { r with infSet := setErase node r.infSet }

/-- `RemoveRecord`: drop the frame's bookkeeping and adjust the sizes
(`cur_size_--`, `replacer_size_++`; the sizes are `size_t`, which never
underflows in reachable states). -/
def removeRecord (r : Replacer) (f : Nat) : Replacer :=
  { r with evitable := aerase f r.evitable, frameTime := aerase f r.frameTime,
           frameCnt := aerase f r.frameCnt, curSize := r.curSize - 1,
           replacerSize := r.replacerSize + 1 }

/-- `EvitFromSet`: take the first element of the set, erase it, and return
its frame id (the mutate-while-iterating loop in the source stops after
the first element). -/
def evitFromSet : List (Nat × Nat) → Option (Nat × List (Nat × Nat))
  | [] => none
  | n :: rest => some (n.2, rest)

/-- `LRUKReplacer::Evict`: try the inf-set first, then the kth-set, and on
success drop the victim's record. -/
def evict (r : Replacer) : Option Nat × Replacer :=
  match evitFromSet r.infSet with
  | some (f, s) => (some f, removeRecord { r with infSet := s } f)
  | none =>
      match evitFromSet r.kthSet with
      | some (f, s) => (some f, removeRecord { r with kthSet := s } f)
      | none => (none, r)

/-- `LRUKReplacer::RecordAccess`.  The entry guard, the new-frame branch,
the unevictable branch (timestamp refreshed as soon as the incremented
count reaches `k_`) and the evictable branch (below `k_-1` only counts;
otherwise erase, restamp, recount, reinsert) follow the source line by
line.  `cnt0 < r.k - 1` is the `size_t` comparison `frame_cnt < k_ - 1`
(the repository always constructs replacers with `k ≥ 1`). -/
def recordAccess (r0 : Replacer) (f : Nat) : Replacer :=
  let ts := r0.clock + 1
  let r := { r0 with clock := ts }
  if (alookup f r.frameCnt).isNone ∧ r.replacerSize = 0 then r
  else
    let cnt0 := (alookup f r.frameCnt).getD 0
    let r1 :=
      if cnt0 = 0 then
        { r with evitable := aset f false r.evitable,
                 frameTime := aset f ts r.frameTime,
                 replacerSize := r.replacerSize - 1 }
      else r
    if ¬ ((alookup f r1.evitable).getD false) then
      let r2 := { r1 with frameCnt := aset f (cnt0 + 1) r1.frameCnt }
      if r.k ≤ cnt0 + 1 then { r2 with frameTime := aset f ts r2.frameTime }
      else r2
    else
      if cnt0 < r.k - 1 then { r1 with frameCnt := aset f (cnt0 + 1) r1.frameCnt }
      else
        let r2 := removeFromSet r1 f
        let r3 := { r2 with frameTime := aset f ts r2.frameTime,
                            frameCnt := aset f (cnt0 + 1) r2.frameCnt }
        insertToSet r3 f

/-- `LRUKReplacer::SetEvictable`. -/
def setEvictable (r : Replacer) (f : Nat) (b : Bool) : Replacer :=
  if (alookup f r.frameTime).isNone ∨ (alookup f r.evitable).getD false = b then r
  else
    let r1 := { r with evitable := aset f b r.evitable }
    if b then
      let r2 := insertToSet r1 f
      { r2 with curSize := r2.curSize + 1 }
    else
      let r2 := removeFromSet r1 f
      { r2 with curSize := r2.curSize - 1 }

/-- `LRUKReplacer::Remove`: no-op when the frame is untracked; the
`BUSTUB_ASSERT(evitable_[frame_id])` abort path (tracked but unevictable)
is modelled as leaving the state unchanged, and no claim exercises it. -/
def removeFrame (r : Replacer) (f : Nat) : Replacer :=
  if (alookup f r.frameTime).isNone then r
  else if (alookup f r.evitable).getD false then
    removeRecord (removeFromSet r f) f
  else r

/-- The replacer operations a client can issue. -/
inductive ROp where
  | record (f : Nat)
  | setEvict (f : Nat) (b : Bool)
  | evictOp
  | remove (f : Nat)
  deriving Repr, DecidableEq

def stepOp (r : Replacer) : ROp → Replacer
  | .record f => recordAccess r f
  | .setEvict f b => setEvictable r f b
  | .evictOp => (evict r).2
  | .remove f => removeFrame r f

/-- Ghost access histories: for each tracked frame, the timestamps of its
recorded accesses, oldest first.  Mirrors exactly which calls the replacer
records (the capacity guard records nothing) and which records it drops. -/
def histStep (r : Replacer) (h : List (Nat × List Nat)) : ROp → List (Nat × List Nat)
  | .record f =>
      if (alookup f r.frameCnt).isNone ∧ r.replacerSize = 0 then h
      else aset f ((alookup f h).getD [] ++ [r.clock + 1]) h
  | .setEvict _ _ => h
  | .evictOp =>
      match (evict r).1 with
      | some f => aerase f h
      | none => h
  | .remove f =>
      if (alookup f r.frameTime).isSome ∧ (alookup f r.evitable).getD false then
        aerase f h
      else h

/-- Run a list of operations from a fresh replacer, with ghost histories. -/
def runH (numFrames k : Nat) (ops : List ROp) : Replacer × List (Nat × List Nat) :=
  ops.foldl (fun p op => (stepOp p.1 op, histStep p.1 p.2 op))
    (initReplacer numFrames k, [])

/-- The frame's access count as the source reads it (`frame_cnt_[f]`). -/
def cntOf (r : Replacer) (f : Nat) : Nat := (alookup f r.frameCnt).getD 0

/-- The frame's evictable flag as the source reads it (`evitable_[f]`). -/
def evOf (r : Replacer) (f : Nat) : Bool := (alookup f r.evitable).getD false

/-- The state invariant tying every replacer state reachable by the
operations to the ghost access histories: counts are history lengths, the
stored timestamp of a frame is its first access while it has fewer than
`k` accesses and its most recent access afterwards, and the two ordered
sets hold exactly the evictable frames of the matching class, keyed by the
stored timestamp. -/
structure Inv (r : Replacer) (h : List (Nat × List Nat)) : Prop where
  domCnt : ∀ f, (alookup f r.frameCnt).isSome = (alookup f r.frameTime).isSome
  cntPos : ∀ f n, alookup f r.frameCnt = some n → 1 ≤ n
  domHist : ∀ f, (alookup f h).isSome = (alookup f r.frameTime).isSome
  histLen : ∀ f l, alookup f h = some l →
      l.length = (alookup f r.frameCnt).getD 0
  histTime : ∀ f l, alookup f h = some l →
      alookup f r.frameTime =
        some (if l.length < r.k then l.headD 0 else l.getLastD 0)
  evTracked : ∀ f, (alookup f r.evitable).getD false = true →
      (alookup f r.frameTime).isSome
  infSorted : List.Pairwise lexLt r.infSet
  kthSorted : List.Pairwise lexLt r.kthSet
  infMem : ∀ t f, (t, f) ∈ r.infSet ↔
      ((alookup f r.evitable).getD false = true ∧
        (alookup f r.frameCnt).getD 0 < r.k ∧
        alookup f r.frameTime = some t)
  kthMem : ∀ t f, (t, f) ∈ r.kthSet ↔
      ((alookup f r.evitable).getD false = true ∧
        r.k ≤ (alookup f r.frameCnt).getD 0 ∧
        alookup f r.frameTime = some t)

theorem headD_concat_of_ne_nil (l : List Nat) (a d : Nat) (h : l ≠ []) :
    (l ++ [a]).headD d = l.headD d := by
  cases l <;> simp_all

theorem inv_init (numFrames k : Nat) : Inv (initReplacer numFrames k) [] := by
  refine ⟨?_, ?_, ?_, ?_, ?_, ?_, ?_, ?_, ?_, ?_⟩ <;>
    simp [initReplacer, alookup, evOf, cntOf]

/-- Dropping a frame's record (as `RemoveRecord` does) preserves the
invariant, provided the new sets are sorted and hold exactly the old
nodes of other frames. -/
theorem inv_drop {r : Replacer} {h : List (Nat × List Nat)} (H : Inv r h)
    (f : Nat) (inf' kth' : List (Nat × Nat)) (cs rs : Nat)
    (hinfS : List.Pairwise lexLt inf') (hkthS : List.Pairwise lexLt kth')
    (hinfM : ∀ t g, (t, g) ∈ inf' ↔ ((t, g) ∈ r.infSet ∧ g ≠ f))
    (hkthM : ∀ t g, (t, g) ∈ kth' ↔ ((t, g) ∈ r.kthSet ∧ g ≠ f)) :
    Inv { r with
          frameCnt := aerase f r.frameCnt,
          frameTime := aerase f r.frameTime,
          evitable := aerase f r.evitable, infSet := inf', kthSet := kth',
          curSize := cs, replacerSize := rs } (aerase f h) := by
  refine ⟨?_, ?_, ?_, ?_, ?_, ?_, hinfS, hkthS, ?_, ?_⟩
  · intro g
    by_cases hg : g = f
    · subst hg; simp [alookup_aerase_self]
    · simp only [alookup_aerase_ne g f _ (Ne.symm hg)]
      exact H.domCnt g
  · intro g n hn
    by_cases hg : g = f
    · subst hg; rw [alookup_aerase_self] at hn; cases hn
    · rw [alookup_aerase_ne g f _ (Ne.symm hg)] at hn
      exact H.cntPos g n hn
  · intro g
    by_cases hg : g = f
    · subst hg; simp [alookup_aerase_self]
    · simp only [alookup_aerase_ne g f _ (Ne.symm hg)]
      exact H.domHist g
  · intro g l hl
    by_cases hg : g = f
    · subst hg; rw [alookup_aerase_self] at hl; cases hl
    · rw [alookup_aerase_ne g f _ (Ne.symm hg)] at hl
      simpa [alookup_aerase_ne g f _ (Ne.symm hg)] using H.histLen g l hl
  · intro g l hl
    by_cases hg : g = f
    · subst hg; rw [alookup_aerase_self] at hl; cases hl
    · rw [alookup_aerase_ne g f _ (Ne.symm hg)] at hl
      simpa [alookup_aerase_ne g f _ (Ne.symm hg)] using H.histTime g l hl
  · intro g hev
    by_cases hg : g = f
    · subst hg; simp [alookup_aerase_self] at hev
    · simp only [alookup_aerase_ne g f _ (Ne.symm hg)] at hev
      simpa [alookup_aerase_ne g f _ (Ne.symm hg)] using H.evTracked g hev
  · intro t g
    rw [hinfM t g]
    by_cases hg : g = f
    · subst hg
      simp [alookup_aerase_self]
    · rw [H.infMem t g]
      simp only [alookup_aerase_ne g f _ (Ne.symm hg)]
      simp [hg]
  · intro t g
    rw [hkthM t g]
    by_cases hg : g = f
    · subst hg
      simp [alookup_aerase_self]
    · rw [H.kthMem t g]
      simp only [alookup_aerase_ne g f _ (Ne.symm hg)]
      simp [hg]

theorem inv_evict {r : Replacer} {h : List (Nat × List Nat)} (H : Inv r h) :
    Inv (evict r).2 (histStep r h ROp.evictOp) := by
  cases hinf : r.infSet with
  | cons hd rest =>
      obtain ⟨t, f⟩ := hd
      have hmem : (t, f) ∈ r.infSet := by rw [hinf]; exact List.mem_cons_self _ _
      obtain ⟨hev, hlt, htime⟩ := (H.infMem t f).mp hmem
      have hsorted := H.infSorted
      rw [hinf] at hsorted
      obtain ⟨hhd, hrest⟩ := List.pairwise_cons.mp hsorted
      have hstep1 : (evict r).1 = some f := by simp [evict, evitFromSet, hinf]
      have hstep2 : (evict r).2 = removeRecord { r with infSet := rest } f := by
        simp [evict, evitFromSet, hinf]
      rw [hstep2, show histStep r h ROp.evictOp = aerase f h by
        simp [histStep, hstep1]]
      refine inv_drop H f rest r.kthSet _ _ hrest H.kthSorted ?_ ?_
      · intro t' g
        constructor
        · intro hg
          have hgmem : (t', g) ∈ r.infSet := by
            rw [hinf]; exact List.mem_cons_of_mem _ hg
          refine ⟨hgmem, ?_⟩
          rintro rfl
          obtain ⟨_, _, htime'⟩ := (H.infMem t' g).mp hgmem
          have ht : t' = t := Option.some_inj.mp (htime'.symm.trans htime)
          subst ht
          exact lexLt_irrefl _ (hhd _ hg)
        · rintro ⟨hgmem, hne⟩
          rw [hinf] at hgmem
          rcases List.mem_cons.mp hgmem with heq | hg
          · cases heq
            exact absurd rfl hne
          · exact hg
      · intro t' g
        constructor
        · intro hg
          refine ⟨hg, ?_⟩
          rintro rfl
          obtain ⟨_, hge, _⟩ := (H.kthMem t' g).mp hg
          omega
        · exact fun hp => hp.1
  | nil =>
      cases hkth : r.kthSet with
      | cons hd rest =>
          obtain ⟨t, f⟩ := hd
          have hmem : (t, f) ∈ r.kthSet := by rw [hkth]; exact List.mem_cons_self _ _
          obtain ⟨hev, hge, htime⟩ := (H.kthMem t f).mp hmem
          have hsorted := H.kthSorted
          rw [hkth] at hsorted
          obtain ⟨hhd, hrest⟩ := List.pairwise_cons.mp hsorted
          have hstep1 : (evict r).1 = some f := by simp [evict, evitFromSet, hinf, hkth]
          have hstep2 : (evict r).2 = removeRecord { r with kthSet := rest } f := by
            simp [evict, evitFromSet, hinf, hkth]
          rw [hstep2, show histStep r h ROp.evictOp = aerase f h by
            simp [histStep, hstep1]]
          refine inv_drop H f r.infSet rest _ _ H.infSorted hrest ?_ ?_
          · intro t' g
            constructor
            · intro hg
              refine ⟨hg, ?_⟩
              rintro rfl
              obtain ⟨_, hlt, _⟩ := (H.infMem t' g).mp hg
              omega
            · exact fun hp => hp.1
          · intro t' g
            constructor
            · intro hg
              have hgmem : (t', g) ∈ r.kthSet := by
                rw [hkth]; exact List.mem_cons_of_mem _ hg
              refine ⟨hgmem, ?_⟩
              rintro rfl
              obtain ⟨_, _, htime'⟩ := (H.kthMem t' g).mp hgmem
              have ht : t' = t := Option.some_inj.mp (htime'.symm.trans htime)
              subst ht
              exact lexLt_irrefl _ (hhd _ hg)
            · rintro ⟨hgmem, hne⟩
              rw [hkth] at hgmem
              rcases List.mem_cons.mp hgmem with heq | hg
              · cases heq
                exact absurd rfl hne
              · exact hg
      | nil =>
          have he : evict r = (none, r) := by simp [evict, evitFromSet, hinf, hkth]
          rw [show histStep r h ROp.evictOp = h by simp [histStep, he], he]
          exact H

/-- Erasing the node `(t0, f)` from a sorted set in which every node of
frame `f` carries the timestamp `t0` removes exactly frame `f`'s nodes. -/
theorem mem_setErase_frame (s : List (Nat × Nat)) (f t0 : Nat)
    (hs : List.Pairwise lexLt s)
    (htime : ∀ t', (t', f) ∈ s → t' = t0) :
    ∀ t g, (t, g) ∈ setErase (t0, f) s ↔ ((t, g) ∈ s ∧ g ≠ f) := by
  intro t g
  rw [mem_setErase _ _ _ hs]
  constructor
  · rintro ⟨hm, hne⟩
    refine ⟨hm, ?_⟩
    rintro rfl
    exact hne (by rw [htime t hm])
  · rintro ⟨hm, hne⟩
    refine ⟨hm, ?_⟩
    rintro heq
    cases heq
    exact hne rfl

theorem inv_removeFrame {r : Replacer} {h : List (Nat × List Nat)}
    (H : Inv r h) (f : Nat) :
    Inv (removeFrame r f) (histStep r h (ROp.remove f)) := by
  by_cases h1 : alookup f r.frameTime = none
  · rw [show removeFrame r f = r by simp [removeFrame, h1],
      show histStep r h (ROp.remove f) = h by simp [histStep, h1]]
    exact H
  · obtain ⟨t0, ht0⟩ := Option.ne_none_iff_exists'.mp h1
    by_cases h2 : (alookup f r.evitable).getD false
    · have hre : removeFrame r f = removeRecord (removeFromSet r f) f := by
        simp [removeFrame, ht0, h2]
      have hh : histStep r h (ROp.remove f) = aerase f h := by
        simp [histStep, ht0, h2]
      rw [hre, hh]
      by_cases hk : r.k ≤ (alookup f r.frameCnt).getD 0
      · have hrs : removeFromSet r f =
            { r with kthSet := setErase (t0, f) r.kthSet } := by
          simp [removeFromSet, ht0, hk]
        rw [hrs]
        refine inv_drop H f r.infSet (setErase (t0, f) r.kthSet) _ _
          H.infSorted (pairwise_setErase _ _ H.kthSorted) ?_
          (mem_setErase_frame _ _ _ H.kthSorted ?_)
        · intro t' g
          constructor
          · intro hg
            refine ⟨hg, ?_⟩
            rintro rfl
            obtain ⟨_, hlt, _⟩ := (H.infMem t' g).mp hg
            omega
          · exact fun hp => hp.1
        · intro t' hm
          obtain ⟨_, _, htime'⟩ := (H.kthMem t' f).mp hm
          exact Option.some_inj.mp (htime'.symm.trans ht0)
      · have hrs : removeFromSet r f =
            { r with infSet := setErase (t0, f) r.infSet } := by
          simp [removeFromSet, ht0, hk]
        rw [hrs]
        refine inv_drop H f (setErase (t0, f) r.infSet) r.kthSet _ _
          (pairwise_setErase _ _ H.infSorted) H.kthSorted
          (mem_setErase_frame _ _ _ H.infSorted ?_) ?_
        · intro t' hm
          obtain ⟨_, _, htime'⟩ := (H.infMem t' f).mp hm
          exact Option.some_inj.mp (htime'.symm.trans ht0)
        · intro t' g
          constructor
          · intro hg
            refine ⟨hg, ?_⟩
            rintro rfl
            obtain ⟨_, hge, _⟩ := (H.kthMem t' g).mp hg
            omega
          · exact fun hp => hp.1
    · rw [show removeFrame r f = r by simp [removeFrame, ht0, h2],
        show histStep r h (ROp.remove f) = h by simp [histStep, ht0, h2]]
      exact H

theorem inv_setEvictable {r : Replacer} {h : List (Nat × List Nat)}
    (H : Inv r h) (f : Nat) (b : Bool) :
    Inv (setEvictable r f b) h := by
  cases ht : alookup f r.frameTime with
  | none =>
      rw [show setEvictable r f b = r by simp [setEvictable, ht]]
      exact H
  | some t0 =>
      by_cases hev : (alookup f r.evitable).getD false = b
      · rw [show setEvictable r f b = r by simp [setEvictable, ht, hev]]
        exact H
      · cases b with
        | true =>
            have hevf : (alookup f r.evitable).getD false = false := by
              simpa using hev
            by_cases hk : r.k ≤ (alookup f r.frameCnt).getD 0
            · rw [show setEvictable r f true =
                  { r with
                    evitable := aset f true r.evitable,
                    kthSet := setInsert (t0, f) r.kthSet,
                    curSize := r.curSize + 1 } by
                simp [setEvictable, insertToSet, ht, hevf, hk]]
              refine ⟨H.domCnt, H.cntPos, H.domHist, H.histLen, H.histTime, ?_,
                H.infSorted, pairwise_setInsert _ _ H.kthSorted, ?_, ?_⟩
              · intro g hevg
                by_cases hg : g = f
                · subst hg; simp [ht]
                · simp only [alookup_aset_ne g f _ _ (Ne.symm hg)] at hevg
                  exact H.evTracked g hevg
              · intro t g
                by_cases hg : g = f
                · subst hg
                  constructor
                  · intro hm
                    obtain ⟨he, _, _⟩ := (H.infMem t g).mp hm
                    rw [hevf] at he; cases he
                  · rintro ⟨_, hlt, _⟩
                    dsimp only at hlt
                    omega
                · simp only [alookup_aset_ne g f _ _ (Ne.symm hg)]
                  exact H.infMem t g
              · intro t g
                rw [mem_setInsert]
                by_cases hg : g = f
                · subst hg
                  constructor
                  · rintro (heq | hm)
                    · cases heq
                      exact ⟨by simp [alookup_aset_self], hk, ht⟩
                    · obtain ⟨he, _, _⟩ := (H.kthMem t g).mp hm
                      rw [hevf] at he; cases he
                  · rintro ⟨_, _, htg⟩
                    left
                    rw [ht] at htg
                    rw [Option.some_inj.mp htg]
                · constructor
                  · rintro (heq | hm)
                    · cases heq
                      exact absurd rfl hg
                    · have hh := (H.kthMem t g).mp hm
                      simp only [evOf, cntOf] at hh
                      simp only [alookup_aset_ne g f _ _ (Ne.symm hg)]
                      exact hh
                  · intro hrhs
                    simp only [alookup_aset_ne g f _ _ (Ne.symm hg)] at hrhs
                    right
                    exact (H.kthMem t g).mpr hrhs
            · rw [show setEvictable r f true =
                  { r with
                    evitable := aset f true r.evitable,
                    infSet := setInsert (t0, f) r.infSet,
                    curSize := r.curSize + 1 } by
                simp [setEvictable, insertToSet, ht, hevf, hk]]
              refine ⟨H.domCnt, H.cntPos, H.domHist, H.histLen, H.histTime, ?_,
                pairwise_setInsert _ _ H.infSorted, H.kthSorted, ?_, ?_⟩
              · intro g hevg
                by_cases hg : g = f
                · subst hg; simp [ht]
                · simp only [alookup_aset_ne g f _ _ (Ne.symm hg)] at hevg
                  exact H.evTracked g hevg
              · intro t g
                rw [mem_setInsert]
                by_cases hg : g = f
                · subst hg
                  constructor
                  · rintro (heq | hm)
                    · cases heq
                      exact ⟨by simp [alookup_aset_self], Nat.lt_of_not_le hk, ht⟩
                    · obtain ⟨he, _, _⟩ := (H.infMem t g).mp hm
                      rw [hevf] at he; cases he
                  · rintro ⟨_, _, htg⟩
                    left
                    rw [ht] at htg
                    rw [Option.some_inj.mp htg]
                · constructor
                  · rintro (heq | hm)
                    · cases heq
                      exact absurd rfl hg
                    · have hh := (H.infMem t g).mp hm
                      simp only [evOf, cntOf] at hh
                      simp only [alookup_aset_ne g f _ _ (Ne.symm hg)]
                      exact hh
                  · intro hrhs
                    simp only [alookup_aset_ne g f _ _ (Ne.symm hg)] at hrhs
                    right
                    exact (H.infMem t g).mpr hrhs
              · intro t g
                by_cases hg : g = f
                · subst hg
                  constructor
                  · intro hm
                    obtain ⟨he, _, _⟩ := (H.kthMem t g).mp hm
                    rw [hevf] at he; cases he
                  · rintro ⟨_, hge, _⟩
                    dsimp only at hge
                    omega
                · simp only [alookup_aset_ne g f _ _ (Ne.symm hg)]
                  exact H.kthMem t g
        | false =>
            have hevt : (alookup f r.evitable).getD false = true := by
              simpa using hev
            by_cases hk : r.k ≤ (alookup f r.frameCnt).getD 0
            · rw [show setEvictable r f false =
                  { r with
                    evitable := aset f false r.evitable,
                    kthSet := setErase (t0, f) r.kthSet,
                    curSize := r.curSize - 1 } by
                simp [setEvictable, removeFromSet, ht, hevt, hk]]
              refine ⟨H.domCnt, H.cntPos, H.domHist, H.histLen, H.histTime, ?_,
                H.infSorted, pairwise_setErase _ _ H.kthSorted, ?_, ?_⟩
              · intro g hevg
                by_cases hg : g = f
                · subst hg
                  simp only [alookup_aset_self] at hevg
                  cases hevg
                · simp only [alookup_aset_ne g f _ _ (Ne.symm hg)] at hevg
                  exact H.evTracked g hevg
              · intro t g
                by_cases hg : g = f
                · subst hg
                  constructor
                  · intro hm
                    obtain ⟨_, hlt, _⟩ := (H.infMem t g).mp hm
                    omega
                  · rintro ⟨he, _, _⟩
                    simp only [alookup_aset_self] at he
                    cases he
                · simp only [alookup_aset_ne g f _ _ (Ne.symm hg)]
                  exact H.infMem t g
              · intro t g
                rw [mem_setErase_frame _ f t0 H.kthSorted
                  (fun t' hm => Option.some_inj.mp
                    ((((H.kthMem t' f).mp hm).2.2).symm.trans ht)) t g]
                by_cases hg : g = f
                · subst hg
                  constructor
                  · rintro ⟨_, hne⟩
                    exact absurd rfl hne
                  · rintro ⟨he, _, _⟩
                    simp only [alookup_aset_self] at he
                    cases he
                · constructor
                  · rintro ⟨hm, _⟩
                    simp only [alookup_aset_ne g f _ _ (Ne.symm hg)]
                    exact (H.kthMem t g).mp hm
                  · intro hrhs
                    simp only [alookup_aset_ne g f _ _ (Ne.symm hg)] at hrhs
                    exact ⟨(H.kthMem t g).mpr hrhs, hg⟩
            · rw [show setEvictable r f false =
                  { r with
                    evitable := aset f false r.evitable,
                    infSet := setErase (t0, f) r.infSet,
                    curSize := r.curSize - 1 } by
                simp [setEvictable, removeFromSet, ht, hevt, hk]]
              refine ⟨H.domCnt, H.cntPos, H.domHist, H.histLen, H.histTime, ?_,
                pairwise_setErase _ _ H.infSorted, H.kthSorted, ?_, ?_⟩
              · intro g hevg
                by_cases hg : g = f
                · subst hg
                  simp only [alookup_aset_self] at hevg
                  cases hevg
                · simp only [alookup_aset_ne g f _ _ (Ne.symm hg)] at hevg
                  exact H.evTracked g hevg
              · intro t g
                rw [mem_setErase_frame _ f t0 H.infSorted
                  (fun t' hm => Option.some_inj.mp
                    ((((H.infMem t' f).mp hm).2.2).symm.trans ht)) t g]
                by_cases hg : g = f
                · subst hg
                  constructor
                  · rintro ⟨_, hne⟩
                    exact absurd rfl hne
                  · rintro ⟨he, _, _⟩
                    simp only [alookup_aset_self] at he
                    cases he
                · constructor
                  · rintro ⟨hm, _⟩
                    simp only [alookup_aset_ne g f _ _ (Ne.symm hg)]
                    exact (H.infMem t g).mp hm
                  · intro hrhs
                    simp only [alookup_aset_ne g f _ _ (Ne.symm hg)] at hrhs
                    exact ⟨(H.infMem t g).mpr hrhs, hg⟩
              · intro t g
                by_cases hg : g = f
                · subst hg
                  constructor
                  · intro hm
                    obtain ⟨_, hge, _⟩ := (H.kthMem t g).mp hm
                    omega
                  · rintro ⟨he, _, _⟩
                    simp only [alookup_aset_self] at he
                    cases he
                · simp only [alookup_aset_ne g f _ _ (Ne.symm hg)]
                  exact H.kthMem t g

theorem aset_aset {α : Type} (f : Nat) (v w : α) (l : List (Nat × α)) :
    aset f v (aset f w l) = aset f v l := by
  induction l with
  | nil => simp [aset]
  | cons p rest ih =>
      obtain ⟨g, x⟩ := p
      by_cases hg : g = f <;> simp [aset, hg, ih]

/-- The five map-shaped invariant components, for a step that rewrites only
frame `f`'s count, stored time and history, in a consistent way. -/
theorem maps_ok {r : Replacer} {h : List (Nat × List Nat)} (H : Inv r h)
    (r' : Replacer) (h' : List (Nat × List Nat)) (f : Nat)
    (hkk : r'.k = r.k)
    (hcne : ∀ g, g ≠ f → alookup g r'.frameCnt = alookup g r.frameCnt)
    (htne : ∀ g, g ≠ f → alookup g r'.frameTime = alookup g r.frameTime)
    (hhne : ∀ g, g ≠ f → alookup g h' = alookup g h)
    {cn : Nat} (hcf : alookup f r'.frameCnt = some cn) (hcn1 : 1 ≤ cn)
    {ln : List Nat} (hhf : alookup f h' = some ln) (hlnlen : ln.length = cn)
    (htf : alookup f r'.frameTime =
      some (if ln.length < r'.k then ln.headD 0 else ln.getLastD 0)) :
    (∀ g, (alookup g r'.frameCnt).isSome = (alookup g r'.frameTime).isSome) ∧
    (∀ g n, alookup g r'.frameCnt = some n → 1 ≤ n) ∧
    (∀ g, (alookup g h').isSome = (alookup g r'.frameTime).isSome) ∧
    (∀ g l, alookup g h' = some l → l.length = (alookup g r'.frameCnt).getD 0) ∧
    (∀ g l, alookup g h' = some l → alookup g r'.frameTime =
      some (if l.length < r'.k then l.headD 0 else l.getLastD 0)) := by
  refine ⟨?_, ?_, ?_, ?_, ?_⟩
  · intro g
    by_cases hg : g = f
    · subst hg; rw [hcf, htf]; rfl
    · rw [hcne g hg, htne g hg]; exact H.domCnt g
  · intro g n hn
    by_cases hg : g = f
    · subst hg; rw [hcf] at hn; cases hn; exact hcn1
    · rw [hcne g hg] at hn; exact H.cntPos g n hn
  · intro g
    by_cases hg : g = f
    · subst hg; rw [hhf, htf]; rfl
    · rw [hhne g hg, htne g hg]; exact H.domHist g
  · intro g l hl
    by_cases hg : g = f
    · subst hg; rw [hhf] at hl; cases hl; rw [hcf]; exact hlnlen
    · rw [hhne g hg] at hl; rw [hcne g hg]; exact H.histLen g l hl
  · intro g l hl
    by_cases hg : g = f
    · subst hg; rw [hhf] at hl; cases hl; exact htf
    · rw [hhne g hg] at hl; rw [htne g hg, hkk]; exact H.histTime g l hl

theorem inv_record {r : Replacer} {h : List (Nat × List Nat)}
    (H : Inv r h) (f : Nat) :
    Inv (recordAccess r f) (histStep r h (ROp.record f)) := by
  by_cases hg : (alookup f r.frameCnt).isNone ∧ r.replacerSize = 0
  · rw [show recordAccess r f = { r with clock := r.clock + 1 } by
        simp [recordAccess, hg],
      show histStep r h (ROp.record f) = h by simp [histStep, hg]]
    exact ⟨H.domCnt, H.cntPos, H.domHist, H.histLen, H.histTime, H.evTracked,
      H.infSorted, H.kthSorted, H.infMem, H.kthMem⟩
  · by_cases hc0 : (alookup f r.frameCnt).getD 0 = 0
    · have hcn : alookup f r.frameCnt = none := by
        cases hcl : alookup f r.frameCnt with
        | none => rfl
        | some n =>
            have h1 := H.cntPos f n hcl
            rw [hcl] at hc0
            simp at hc0
            omega
      have ht : alookup f r.frameTime = none := by
        cases htl : alookup f r.frameTime with
        | none => rfl
        | some t0 =>
            have hd := H.domCnt f
            rw [hcn, htl] at hd
            simp at hd
      have hh0 : alookup f h = none := by
        cases hhl : alookup f h with
        | none => rfl
        | some l =>
            have hd := H.domHist f
            rw [ht, hhl] at hd
            simp at hd
      have hsz : ¬ r.replacerSize = 0 := fun e => hg ⟨by simp [hcn], e⟩
      have hs : recordAccess r f =
          { r with
            clock := r.clock + 1,
            evitable := aset f false r.evitable,
            frameTime := aset f (r.clock + 1) r.frameTime,
            replacerSize := r.replacerSize - 1,
            frameCnt := aset f 1 r.frameCnt } := by
        by_cases hk1 : r.k ≤ 1 <;>
          simp [recordAccess, hg, hc0, hk1, hsz, alookup_aset_self, aset_aset]
      have hhs : histStep r h (ROp.record f) = aset f [r.clock + 1] h := by
        simp [histStep, hg, hh0, hsz]
      rw [hs, hhs]
      obtain ⟨c1, c2, c3, c4, c5⟩ := maps_ok H
        { r with
          clock := r.clock + 1,
          evitable := aset f false r.evitable,
          frameTime := aset f (r.clock + 1) r.frameTime,
          replacerSize := r.replacerSize - 1,
          frameCnt := aset f 1 r.frameCnt }
        (aset f [r.clock + 1] h) f rfl
        (fun g hgf => alookup_aset_ne g f 1 r.frameCnt (Ne.symm hgf))
        (fun g hgf => alookup_aset_ne g f (r.clock + 1) r.frameTime (Ne.symm hgf))
        (fun g hgf => alookup_aset_ne g f [r.clock + 1] h (Ne.symm hgf))
        (alookup_aset_self f 1 r.frameCnt) le_rfl
        (alookup_aset_self f [r.clock + 1] h) rfl
        (by dsimp only
            rw [alookup_aset_self]
            split_ifs <;> rfl)
      refine ⟨c1, c2, c3, c4, c5, ?_, H.infSorted, H.kthSorted, ?_, ?_⟩
      · intro g hevg
        by_cases hgf : g = f
        · subst hgf
          simp [alookup_aset_self]
        · dsimp only at hevg ⊢
          rw [alookup_aset_ne g f (r.clock + 1) r.frameTime (Ne.symm hgf)]
          rw [alookup_aset_ne g f false r.evitable (Ne.symm hgf)] at hevg
          exact H.evTracked g hevg
      · intro t g
        by_cases hgf : g = f
        · subst hgf
          constructor
          · intro hm
            obtain ⟨-, -, htm⟩ := (H.infMem t g).mp hm
            rw [ht] at htm
            cases htm
          · rintro ⟨he, -, -⟩
            simp [alookup_aset_self] at he
        · dsimp only
          rw [alookup_aset_ne g f false r.evitable (Ne.symm hgf),
            alookup_aset_ne g f 1 r.frameCnt (Ne.symm hgf),
            alookup_aset_ne g f (r.clock + 1) r.frameTime (Ne.symm hgf)]
          exact H.infMem t g
      · intro t g
        by_cases hgf : g = f
        · subst hgf
          constructor
          · intro hm
            obtain ⟨-, -, htm⟩ := (H.kthMem t g).mp hm
            rw [ht] at htm
            cases htm
          · rintro ⟨he, -, -⟩
            simp [alookup_aset_self] at he
        · dsimp only
          rw [alookup_aset_ne g f false r.evitable (Ne.symm hgf),
            alookup_aset_ne g f 1 r.frameCnt (Ne.symm hgf),
            alookup_aset_ne g f (r.clock + 1) r.frameTime (Ne.symm hgf)]
          exact H.kthMem t g
    · cases hcl : alookup f r.frameCnt with
      | none => exact absurd (by simp [hcl]) hc0
      | some n =>
          have hn1 : 1 ≤ n := H.cntPos f n hcl
          have hne : ¬ (n = 0) := by omega
          have htS : (alookup f r.frameTime).isSome := by
            have hd := H.domCnt f
            rw [hcl] at hd
            simpa using hd.symm
          obtain ⟨t0, ht0⟩ := Option.isSome_iff_exists.mp htS
          have hhS : (alookup f h).isSome := by rw [H.domHist f]; exact htS
          obtain ⟨l, hl⟩ := Option.isSome_iff_exists.mp hhS
          have hlen : l.length = n := by
            have := H.histLen f l hl
            rw [hcl] at this
            simpa using this
          have hlne : l ≠ [] := by
            intro e
            rw [e] at hlen
            simp at hlen
            omega
          have hhs : histStep r h (ROp.record f) = aset f (l ++ [r.clock + 1]) h := by
            simp [histStep, hg, hl, hcl]
          by_cases hevb : (alookup f r.evitable).getD false = true
          · -- evictable branches
            by_cases hlt : n < r.k - 1
            · -- only the count grows
              have hs : recordAccess r f =
                  { r with
                    clock := r.clock + 1,
                    frameCnt := aset f (n + 1) r.frameCnt } := by
                simp [recordAccess, hg, hcl, hne, hevb, hlt]
              rw [hs, hhs]
              obtain ⟨c1, c2, c3, c4, c5⟩ := maps_ok H
                { r with
                  clock := r.clock + 1,
                  frameCnt := aset f (n + 1) r.frameCnt }
                (aset f (l ++ [r.clock + 1]) h) f rfl
                (fun g hgf => alookup_aset_ne g f (n + 1) r.frameCnt (Ne.symm hgf))
                (fun g hgf => rfl)
                (fun g hgf => alookup_aset_ne g f (l ++ [r.clock + 1]) h (Ne.symm hgf))
                (alookup_aset_self f (n + 1) r.frameCnt) (by omega)
                (alookup_aset_self f (l ++ [r.clock + 1]) h) (by simp [hlen])
                (by dsimp only
                    rw [if_pos (by simp [hlen]; omega),
                      headD_concat_of_ne_nil l _ 0 hlne]
                    have hht := H.histTime f l hl
                    rw [if_pos (by omega)] at hht
                    exact hht)
              refine ⟨c1, c2, c3, c4, c5, ?_, H.infSorted, H.kthSorted, ?_, ?_⟩
              · intro g hevg
                by_cases hgf : g = f
                · subst hgf; exact htS
                · exact H.evTracked g hevg
              · intro t g
                by_cases hgf : g = f
                · subst hgf
                  constructor
                  · intro hm
                    obtain ⟨he, -, htm⟩ := (H.infMem t g).mp hm
                    refine ⟨he, ?_, htm⟩
                    dsimp only
                    rw [alookup_aset_self]
                    simp
                    omega
                  · rintro ⟨he, -, htm⟩
                    dsimp only at he htm
                    refine (H.infMem t g).mpr ⟨he, ?_, htm⟩
                    rw [hcl]
                    simp
                    omega
                · dsimp only
                  rw [alookup_aset_ne g f (n + 1) r.frameCnt (Ne.symm hgf)]
                  exact H.infMem t g
              · intro t g
                by_cases hgf : g = f
                · subst hgf
                  constructor
                  · intro hm
                    obtain ⟨-, hcc, -⟩ := (H.kthMem t g).mp hm
                    rw [hcl] at hcc
                    simp at hcc
                    omega
                  · rintro ⟨-, hcc, -⟩
                    dsimp only at hcc
                    rw [alookup_aset_self] at hcc
                    simp at hcc
                    omega
                · dsimp only
                  rw [alookup_aset_ne g f (n + 1) r.frameCnt (Ne.symm hgf)]
                  exact H.kthMem t g
            · -- restamp and move to the kth-set
              have hkn1 : r.k ≤ n + 1 := by omega
              have hfkth : ∀ t', (t', f) ∈ r.kthSet → t' = t0 := by
                intro t' hm
                obtain ⟨-, -, htm⟩ := (H.kthMem t' f).mp hm
                exact Option.some_inj.mp (htm.symm.trans ht0)
              have hfinf : ∀ t', (t', f) ∈ r.infSet → t' = t0 := by
                intro t' hm
                obtain ⟨-, -, htm⟩ := (H.infMem t' f).mp hm
                exact Option.some_inj.mp (htm.symm.trans ht0)
              by_cases hkn : r.k ≤ n
              · have hs : recordAccess r f =
                    { r with
                      clock := r.clock + 1,
                      frameTime := aset f (r.clock + 1) r.frameTime,
                      frameCnt := aset f (n + 1) r.frameCnt,
                      kthSet := setInsert (r.clock + 1, f)
                        (setErase (t0, f) r.kthSet) } := by
                  simp [recordAccess, removeFromSet, insertToSet, hg, hcl, hne,
                    hevb, hlt, hkn, hkn1, ht0, alookup_aset_self]
                rw [hs, hhs]
                obtain ⟨c1, c2, c3, c4, c5⟩ := maps_ok H
                  { r with
                    clock := r.clock + 1,
                    frameTime := aset f (r.clock + 1) r.frameTime,
                    frameCnt := aset f (n + 1) r.frameCnt,
                    kthSet := setInsert (r.clock + 1, f)
                      (setErase (t0, f) r.kthSet) }
                  (aset f (l ++ [r.clock + 1]) h) f rfl
                  (fun g hgf => alookup_aset_ne g f (n + 1) r.frameCnt (Ne.symm hgf))
                  (fun g hgf => alookup_aset_ne g f (r.clock + 1) r.frameTime (Ne.symm hgf))
                  (fun g hgf => alookup_aset_ne g f (l ++ [r.clock + 1]) h (Ne.symm hgf))
                  (alookup_aset_self f (n + 1) r.frameCnt) (by omega)
                  (alookup_aset_self f (l ++ [r.clock + 1]) h) (by simp [hlen])
                  (by dsimp only
                      rw [alookup_aset_self,
                        if_neg (by simp [hlen]; omega), List.getLastD_concat])
                refine ⟨c1, c2, c3, c4, c5, ?_, H.infSorted,
                  pairwise_setInsert _ _ (pairwise_setErase _ _ H.kthSorted),
                  ?_, ?_⟩
                · intro g hevg
                  by_cases hgf : g = f
                  · subst hgf
                    dsimp only
                    rw [alookup_aset_self]
                    rfl
                  · dsimp only at hevg ⊢
                    rw [alookup_aset_ne g f (r.clock + 1) r.frameTime (Ne.symm hgf)]
                    exact H.evTracked g hevg
                · intro t g
                  by_cases hgf : g = f
                  · subst hgf
                    constructor
                    · intro hm
                      obtain ⟨-, hcc, -⟩ := (H.infMem t g).mp hm
                      rw [hcl] at hcc
                      simp at hcc
                      omega
                    · rintro ⟨-, hcc, -⟩
                      dsimp only at hcc
                      rw [alookup_aset_self] at hcc
                      simp at hcc
                      omega
                  · dsimp only
                    rw [alookup_aset_ne g f (n + 1) r.frameCnt (Ne.symm hgf),
                      alookup_aset_ne g f (r.clock + 1) r.frameTime (Ne.symm hgf)]
                    exact H.infMem t g
                · intro t g
                  by_cases hgf : g = f
                  · subst hgf
                    dsimp only
                    rw [mem_setInsert]
                    constructor
                    · rintro (heq | hm)
                      · cases heq
                        exact ⟨hevb, by rw [alookup_aset_self]; simpa using hkn1,
                          by rw [alookup_aset_self]⟩
                      · rw [mem_setErase _ _ _ H.kthSorted] at hm
                        obtain ⟨hm', hne'⟩ := hm
                        exact absurd (by rw [hfkth t hm']) hne'
                    · rintro ⟨-, -, htm⟩
                      rw [alookup_aset_self] at htm
                      left
                      rw [Option.some_inj.mp htm]
                  · dsimp only
                    rw [mem_setInsert]
                    constructor
                    · rintro (heq | hm)
                      · cases heq
                        exact absurd rfl hgf
                      · rw [mem_setErase _ _ _ H.kthSorted] at hm
                        rw [alookup_aset_ne g f (n + 1) r.frameCnt (Ne.symm hgf),
                          alookup_aset_ne g f (r.clock + 1) r.frameTime (Ne.symm hgf)]
                        exact (H.kthMem t g).mp hm.1
                    · intro hrhs
                      rw [alookup_aset_ne g f (n + 1) r.frameCnt (Ne.symm hgf),
                        alookup_aset_ne g f (r.clock + 1) r.frameTime (Ne.symm hgf)] at hrhs
                      right
                      rw [mem_setErase _ _ _ H.kthSorted]
                      refine ⟨(H.kthMem t g).mpr hrhs, ?_⟩
                      intro heq
                      cases heq
                      exact hgf rfl
              · have hkgt : n < r.k := Nat.lt_of_not_le hkn
                have hs : recordAccess r f =
                    { r with
                      clock := r.clock + 1,
                      frameTime := aset f (r.clock + 1) r.frameTime,
                      frameCnt := aset f (n + 1) r.frameCnt,
                      infSet := setErase (t0, f) r.infSet,
                      kthSet := setInsert (r.clock + 1, f) r.kthSet } := by
                  simp [recordAccess, removeFromSet, insertToSet, hg, hcl, hne,
                    hevb, hlt, hkn, hkn1, ht0, alookup_aset_self]
                rw [hs, hhs]
                obtain ⟨c1, c2, c3, c4, c5⟩ := maps_ok H
                  { r with
                    clock := r.clock + 1,
                    frameTime := aset f (r.clock + 1) r.frameTime,
                    frameCnt := aset f (n + 1) r.frameCnt,
                    infSet := setErase (t0, f) r.infSet,
                    kthSet := setInsert (r.clock + 1, f) r.kthSet }
                  (aset f (l ++ [r.clock + 1]) h) f rfl
                  (fun g hgf => alookup_aset_ne g f (n + 1) r.frameCnt (Ne.symm hgf))
                  (fun g hgf => alookup_aset_ne g f (r.clock + 1) r.frameTime (Ne.symm hgf))
                  (fun g hgf => alookup_aset_ne g f (l ++ [r.clock + 1]) h (Ne.symm hgf))
                  (alookup_aset_self f (n + 1) r.frameCnt) (by omega)
                  (alookup_aset_self f (l ++ [r.clock + 1]) h) (by simp [hlen])
                  (by dsimp only
                      rw [alookup_aset_self,
                        if_neg (by simp [hlen]; omega), List.getLastD_concat])
                refine ⟨c1, c2, c3, c4, c5, ?_,
                  pairwise_setErase _ _ H.infSorted,
                  pairwise_setInsert _ _ H.kthSorted, ?_, ?_⟩
                · intro g hevg
                  by_cases hgf : g = f
                  · subst hgf
                    dsimp only
                    rw [alookup_aset_self]
                    rfl
                  · dsimp only at hevg ⊢
                    rw [alookup_aset_ne g f (r.clock + 1) r.frameTime (Ne.symm hgf)]
                    exact H.evTracked g hevg
                · intro t g
                  rw [show ({ r with
                      clock := r.clock + 1,
                      frameTime := aset f (r.clock + 1) r.frameTime,
                      frameCnt := aset f (n + 1) r.frameCnt,
                      infSet := setErase (t0, f) r.infSet,
                      kthSet := setInsert (r.clock + 1, f) r.kthSet } : Replacer).infSet
                    = setErase (t0, f) r.infSet from rfl,
                    mem_setErase_frame _ f t0 H.infSorted hfinf t g]
                  by_cases hgf : g = f
                  · subst hgf
                    constructor
                    · rintro ⟨-, hne'⟩
                      exact absurd rfl hne'
                    · rintro ⟨-, hcc, -⟩
                      dsimp only at hcc
                      rw [alookup_aset_self] at hcc
                      simp at hcc
                      omega
                  · constructor
                    · rintro ⟨hm, -⟩
                      dsimp only
                      rw [alookup_aset_ne g f (n + 1) r.frameCnt (Ne.symm hgf),
                        alookup_aset_ne g f (r.clock + 1) r.frameTime (Ne.symm hgf)]
                      exact (H.infMem t g).mp hm
                    · intro hrhs
                      dsimp only at hrhs
                      rw [alookup_aset_ne g f (n + 1) r.frameCnt (Ne.symm hgf),
                        alookup_aset_ne g f (r.clock + 1) r.frameTime (Ne.symm hgf)] at hrhs
                      exact ⟨(H.infMem t g).mpr hrhs, hgf⟩
                · intro t g
                  by_cases hgf : g = f
                  · subst hgf
                    dsimp only
                    rw [mem_setInsert]
                    constructor
                    · rintro (heq | hm)
                      · cases heq
                        exact ⟨hevb, by rw [alookup_aset_self]; simpa using hkn1,
                          by rw [alookup_aset_self]⟩
                      · obtain ⟨-, hcc, -⟩ := (H.kthMem t g).mp hm
                        rw [hcl] at hcc
                        simp at hcc
                        omega
                    · rintro ⟨-, -, htm⟩
                      rw [alookup_aset_self] at htm
                      left
                      rw [Option.some_inj.mp htm]
                  · dsimp only
                    rw [mem_setInsert]
                    constructor
                    · rintro (heq | hm)
                      · cases heq
                        exact absurd rfl hgf
                      · rw [alookup_aset_ne g f (n + 1) r.frameCnt (Ne.symm hgf),
                          alookup_aset_ne g f (r.clock + 1) r.frameTime (Ne.symm hgf)]
                        exact (H.kthMem t g).mp hm
                    · intro hrhs
                      rw [alookup_aset_ne g f (n + 1) r.frameCnt (Ne.symm hgf),
                        alookup_aset_ne g f (r.clock + 1) r.frameTime (Ne.symm hgf)] at hrhs
                      right
                      exact (H.kthMem t g).mpr hrhs
          · -- not evictable
            have hevf : (alookup f r.evitable).getD false = false := by
              simpa using hevb
            by_cases hk : r.k ≤ n + 1
            · have hs : recordAccess r f =
                  { r with
                    clock := r.clock + 1,
                    frameCnt := aset f (n + 1) r.frameCnt,
                    frameTime := aset f (r.clock + 1) r.frameTime } := by
                simp [recordAccess, hg, hcl, hne, hevf, hk]
              rw [hs, hhs]
              obtain ⟨c1, c2, c3, c4, c5⟩ := maps_ok H
                { r with
                  clock := r.clock + 1,
                  frameCnt := aset f (n + 1) r.frameCnt,
                  frameTime := aset f (r.clock + 1) r.frameTime }
                (aset f (l ++ [r.clock + 1]) h) f rfl
                (fun g hgf => alookup_aset_ne g f (n + 1) r.frameCnt (Ne.symm hgf))
                (fun g hgf => alookup_aset_ne g f (r.clock + 1) r.frameTime (Ne.symm hgf))
                (fun g hgf => alookup_aset_ne g f (l ++ [r.clock + 1]) h (Ne.symm hgf))
                (alookup_aset_self f (n + 1) r.frameCnt) (by omega)
                (alookup_aset_self f (l ++ [r.clock + 1]) h) (by simp [hlen])
                (by dsimp only
                    rw [alookup_aset_self,
                      if_neg (by simp [hlen]; omega), List.getLastD_concat])
              refine ⟨c1, c2, c3, c4, c5, ?_, H.infSorted, H.kthSorted, ?_, ?_⟩
              · intro g hevg
                by_cases hgf : g = f
                · subst hgf
                  dsimp only
                  rw [alookup_aset_self]
                  rfl
                · dsimp only at hevg ⊢
                  rw [alookup_aset_ne g f (r.clock + 1) r.frameTime (Ne.symm hgf)]
                  exact H.evTracked g hevg
              · intro t g
                by_cases hgf : g = f
                · subst hgf
                  constructor
                  · intro hm
                    obtain ⟨he, -, -⟩ := (H.infMem t g).mp hm
                    rw [hevf] at he
                    cases he
                  · rintro ⟨he, -, -⟩
                    dsimp only at he
                    rw [hevf] at he
                    cases he
                · dsimp only
                  rw [alookup_aset_ne g f (n + 1) r.frameCnt (Ne.symm hgf),
                    alookup_aset_ne g f (r.clock + 1) r.frameTime (Ne.symm hgf)]
                  exact H.infMem t g
              · intro t g
                by_cases hgf : g = f
                · subst hgf
                  constructor
                  · intro hm
                    obtain ⟨he, -, -⟩ := (H.kthMem t g).mp hm
                    rw [hevf] at he
                    cases he
                  · rintro ⟨he, -, -⟩
                    dsimp only at he
                    rw [hevf] at he
                    cases he
                · dsimp only
                  rw [alookup_aset_ne g f (n + 1) r.frameCnt (Ne.symm hgf),
                    alookup_aset_ne g f (r.clock + 1) r.frameTime (Ne.symm hgf)]
                  exact H.kthMem t g
            · have hs : recordAccess r f =
                  { r with
                    clock := r.clock + 1,
                    frameCnt := aset f (n + 1) r.frameCnt } := by
                simp [recordAccess, hg, hcl, hne, hevf, hk]
              rw [hs, hhs]
              obtain ⟨c1, c2, c3, c4, c5⟩ := maps_ok H
                { r with
                  clock := r.clock + 1,
                  frameCnt := aset f (n + 1) r.frameCnt }
                (aset f (l ++ [r.clock + 1]) h) f rfl
                (fun g hgf => alookup_aset_ne g f (n + 1) r.frameCnt (Ne.symm hgf))
                (fun g hgf => rfl)
                (fun g hgf => alookup_aset_ne g f (l ++ [r.clock + 1]) h (Ne.symm hgf))
                (alookup_aset_self f (n + 1) r.frameCnt) (by omega)
                (alookup_aset_self f (l ++ [r.clock + 1]) h) (by simp [hlen])
                (by dsimp only
                    rw [if_pos (by simp [hlen]; omega),
                      headD_concat_of_ne_nil l _ 0 hlne]
                    have hht := H.histTime f l hl
                    rw [if_pos (by omega)] at hht
                    exact hht)
              refine ⟨c1, c2, c3, c4, c5, ?_, H.infSorted, H.kthSorted, ?_, ?_⟩
              · intro g hevg
                by_cases hgf : g = f
                · subst hgf; exact htS
                · exact H.evTracked g hevg
              · intro t g
                by_cases hgf : g = f
                · subst hgf
                  constructor
                  · intro hm
                    obtain ⟨he, -, -⟩ := (H.infMem t g).mp hm
                    rw [hevf] at he
                    cases he
                  · rintro ⟨he, -, -⟩
                    dsimp only at he
                    rw [hevf] at he
                    cases he
                · dsimp only
                  rw [alookup_aset_ne g f (n + 1) r.frameCnt (Ne.symm hgf)]
                  exact H.infMem t g
              · intro t g
                by_cases hgf : g = f
                · subst hgf
                  constructor
                  · intro hm
                    obtain ⟨he, -, -⟩ := (H.kthMem t g).mp hm
                    rw [hevf] at he
                    cases he
                  · rintro ⟨he, -, -⟩
                    dsimp only at he
                    rw [hevf] at he
                    cases he
                · dsimp only
                  rw [alookup_aset_ne g f (n + 1) r.frameCnt (Ne.symm hgf)]
                  exact H.kthMem t g

theorem inv_step {r : Replacer} {h : List (Nat × List Nat)} (H : Inv r h)
    (op : ROp) : Inv (stepOp r op) (histStep r h op) := by
  cases op with
  | record f => exact inv_record H f
  | setEvict f b => exact inv_setEvictable H f b
  | evictOp => exact inv_evict H
  | remove f => exact inv_removeFrame H f

theorem inv_foldl (ops : List ROp) :
    ∀ p : Replacer × List (Nat × List Nat), Inv p.1 p.2 →
      Inv (ops.foldl (fun p op => (stepOp p.1 op, histStep p.1 p.2 op)) p).1
        (ops.foldl (fun p op => (stepOp p.1 op, histStep p.1 p.2 op)) p).2 := by
  induction ops with
  | nil => exact fun p hp => hp
  | cons op rest ih => exact fun p hp => ih _ (inv_step hp op)

/-- Every state reachable by running operations from a fresh replacer
satisfies the invariant. -/
theorem inv_runH (numFrames k : Nat) (ops : List ROp) :
    Inv (runH numFrames k ops).1 (runH numFrames k ops).2 :=
  inv_foldl ops _ (inv_init numFrames k)

theorem insertToSet_k (r : Replacer) (f : Nat) : (insertToSet r f).k = r.k := by
  unfold insertToSet
  split_ifs <;> rfl

theorem removeFromSet_k (r : Replacer) (f : Nat) : (removeFromSet r f).k = r.k := by
  unfold removeFromSet
  split_ifs <;> rfl

theorem recordAccess_k (r : Replacer) (f : Nat) : (recordAccess r f).k = r.k := by
  simp only [recordAccess]
  split_ifs <;> simp [insertToSet_k, removeFromSet_k]

theorem setEvictable_k (r : Replacer) (f : Nat) (b : Bool) :
    (setEvictable r f b).k = r.k := by
  simp only [setEvictable]
  split_ifs <;> simp [insertToSet_k, removeFromSet_k]

theorem evict_k (r : Replacer) : (evict r).2.k = r.k := by
  unfold evict evitFromSet
  cases r.infSet with
  | cons a rest => rfl
  | nil =>
      cases r.kthSet with
      | cons a rest => rfl
      | nil => rfl

theorem removeFrame_k (r : Replacer) (f : Nat) : (removeFrame r f).k = r.k := by
  simp only [removeFrame]
  split_ifs <;> simp [removeRecord, removeFromSet_k]

theorem stepOp_k (r : Replacer) (op : ROp) : (stepOp r op).k = r.k := by
  cases op with
  | record f => exact recordAccess_k r f
  | setEvict f b => exact setEvictable_k r f b
  | evictOp => exact evict_k r
  | remove f => exact removeFrame_k r f

theorem runH_k (numFrames k : Nat) (ops : List ROp) :
    (runH numFrames k ops).1.k = k := by
  suffices hs : ∀ p : Replacer × List (Nat × List Nat),
      (ops.foldl (fun p op => (stepOp p.1 op, histStep p.1 p.2 op)) p).1.k = p.1.k by
    exact hs (initReplacer numFrames k, [])
  induction ops with
  | nil => exact fun p => rfl
  | cons op rest ih =>
      intro p
      rw [List.foldl_cons, ih]
      exact stepOp_k p.1 op

/-- The spec's "K-th most recent access" of an access history (oldest
first): the oldest of the K most recent entries, when there are at least
K of them. -/
def kthMostRecent (k : Nat) (l : List Nat) : Option Nat :=
  if 1 ≤ k ∧ k ≤ l.length then some ((l.drop (l.length - k)).headD 0) else none

/-- The corrected per-state guarantees of the LRU-K replacer, for the
state reached by `ops` from a fresh replacer of parameters
`(numFrames, k)`: every kth-set node of a frame carries the time of the
frame's most recent recorded access (not the K-th most recent, which the
code does not preserve) and the frame is evictable with at least `k`
accesses; every inf-set node carries the frame's first access time, with
fewer than `k` accesses; and a successful `Evict` returns the
lexicographically least `(timestamp, frame id)` node of the inf-set when
it is non-empty, otherwise of the kth-set. -/
def C2Concl (numFrames k : Nat) (ops : List ROp) : Prop :=
  (∀ t f, (t, f) ∈ (runH numFrames k ops).1.kthSet →
      (alookup f (runH numFrames k ops).1.evitable).getD false = true ∧
      k ≤ ((alookup f (runH numFrames k ops).2).getD []).length ∧
      t = ((alookup f (runH numFrames k ops).2).getD []).getLastD 0) ∧
  (∀ t f, (t, f) ∈ (runH numFrames k ops).1.infSet →
      (alookup f (runH numFrames k ops).1.evitable).getD false = true ∧
      ((alookup f (runH numFrames k ops).2).getD []).length < k ∧
      1 ≤ ((alookup f (runH numFrames k ops).2).getD []).length ∧
      t = ((alookup f (runH numFrames k ops).2).getD []).headD 0) ∧
  (∀ f, (evict (runH numFrames k ops).1).1 = some f →
      ((∃ t, (t, f) ∈ (runH numFrames k ops).1.infSet ∧
          ∀ t' f', (t', f') ∈ (runH numFrames k ops).1.infSet →
            ((t, f) = (t', f') ∨ lexLt (t, f) (t', f'))) ∨
       ((runH numFrames k ops).1.infSet = [] ∧
        ∃ t, (t, f) ∈ (runH numFrames k ops).1.kthSet ∧
          ∀ t' f', (t', f') ∈ (runH numFrames k ops).1.kthSet →
            ((t, f) = (t', f') ∨ lexLt (t, f) (t', f')))))

theorem c2_general (numFrames k : Nat) (ops : List ROp) :
    C2Concl numFrames k ops := by
  have H := inv_runH numFrames k ops
  have hk := runH_k numFrames k ops
  refine ⟨?_, ?_, ?_⟩
  · intro t f hm
    obtain ⟨hev, hge, htm⟩ := (H.kthMem t f).mp hm
    have hhS : (alookup f (runH numFrames k ops).2).isSome := by
      rw [H.domHist f]
      exact H.evTracked f hev
    obtain ⟨l, hl⟩ := Option.isSome_iff_exists.mp hhS
    have hlen := H.histLen f l hl
    have hht := H.histTime f l hl
    rw [htm] at hht
    have ht' := Option.some_inj.mp hht
    rw [hk] at hge
    rw [hl]
    simp only [Option.getD_some]
    refine ⟨hev, by omega, ?_⟩
    rw [if_neg (by omega)] at ht'
    exact ht'
  · intro t f hm
    obtain ⟨hev, hlt, htm⟩ := (H.infMem t f).mp hm
    have hhS : (alookup f (runH numFrames k ops).2).isSome := by
      rw [H.domHist f]
      exact H.evTracked f hev
    obtain ⟨l, hl⟩ := Option.isSome_iff_exists.mp hhS
    have hlen := H.histLen f l hl
    have hht := H.histTime f l hl
    rw [htm] at hht
    have ht' := Option.some_inj.mp hht
    rw [hk] at hlt
    have hc : (alookup f (runH numFrames k ops).1.frameCnt).isSome := by
      rw [H.domCnt f]
      exact H.evTracked f hev
    obtain ⟨n, hcl⟩ := Option.isSome_iff_exists.mp hc
    have hn1 := H.cntPos f n hcl
    rw [hcl] at hlen
    simp only [Option.getD_some] at hlen
    rw [hcl] at hlt
    simp only [Option.getD_some] at hlt
    rw [hl]
    simp only [Option.getD_some]
    refine ⟨hev, by omega, by omega, ?_⟩
    rw [if_pos (by rw [hk]; omega)] at ht'
    exact ht'
  · intro f he
    cases hinf : (runH numFrames k ops).1.infSet with
    | cons hd rest =>
        left
        have hev1 : (evict (runH numFrames k ops).1).1 = some hd.2 := by
          simp [evict, evitFromSet, hinf]
        have hf : hd.2 = f := by
          rw [hev1] at he
          exact Option.some_inj.mp he
        have hsorted := H.infSorted
        rw [hinf] at hsorted
        obtain ⟨hhd, -⟩ := List.pairwise_cons.mp hsorted
        refine ⟨hd.1, ?_, ?_⟩
        · rw [← hf]
          exact List.mem_cons_self _ _
        · intro t' f' hm'
          rcases List.mem_cons.mp hm' with heq | hmem
          · left
            rw [← hf, heq]
          · right
            rw [← hf]
            exact hhd _ hmem
    | nil =>
        right
        refine ⟨rfl, ?_⟩
        cases hkth : (runH numFrames k ops).1.kthSet with
        | nil =>
            exfalso
            have hev0 : (evict (runH numFrames k ops).1).1 = none := by
              simp [evict, evitFromSet, hinf, hkth]
            rw [hev0] at he
            cases he
        | cons hd rest =>
            have hev1 : (evict (runH numFrames k ops).1).1 = some hd.2 := by
              simp [evict, evitFromSet, hinf, hkth]
            have hf : hd.2 = f := by
              rw [hev1] at he
              exact Option.some_inj.mp he
            have hsorted := H.kthSorted
            rw [hkth] at hsorted
            obtain ⟨hhd, -⟩ := List.pairwise_cons.mp hsorted
            refine ⟨hd.1, ?_, ?_⟩
            · rw [← hf]
              exact List.mem_cons_self _ _
            · intro t' f' hm'
              rcases List.mem_cons.mp hm' with heq | hmem
              · left
                rw [← hf, heq]
              · right
                rw [← hf]
                exact hhd _ hmem

/-- The access sequence of the spec scenario: frames A=0, B=1, C=2 are
recorded A,B,A,B,C and all made evictable. -/
def c2Ops1 : List ROp :=
  [ROp.record 0, ROp.record 1, ROp.record 0, ROp.record 1, ROp.record 2,
   ROp.setEvict 0 true, ROp.setEvict 1 true, ROp.setEvict 2 true]

/-- The scenario continued with one more access to C. -/
def c2Ops2 : List ROp := c2Ops1 ++ [ROp.record 2]

/-- Two accesses to frame 0 while it is unevictable, then make it
evictable. -/
def c2OpsCx : List ROp := [ROp.record 0, ROp.record 0, ROp.setEvict 0 true]

/-- C2, counterexample to the claim as stated: with K = 2, after recording
frame 0 twice (timestamps 1 and 2) and making it evictable, the node
ordering frame 0 in the kth-set carries timestamp 2 — the most recent
access — whereas its K-th most recent (2nd most recent) access happened at
time 1.  The code refreshes `frame_time_` on every access once the count
has reached `k_`, so the kth-set key is not the K-th most recent access. -/
theorem c2_kth_timestamp_counterexample :
    (2, 0) ∈ (runH 3 2 c2OpsCx).1.kthSet ∧
    kthMostRecent 2 ((alookup 0 (runH 3 2 c2OpsCx).2).getD []) = some 1 ∧
    (2 : Nat) ≠ 1 :=
  ⟨by decide, by decide, by decide⟩

/-- C2 (amended): in every reachable replacer state, a frame's node in the
kth-set carries the time of its most recent recorded access (amended from
the claimed K-th most recent) and the frame is evictable with at least K
recorded accesses; a node in the inf-set carries the frame's first access
time, the frame being evictable with fewer than K accesses; `Evict`
removes the lexicographically least `(timestamp, frame id)` node of the
inf-set when it is non-empty and of the kth-set otherwise (so first the
inf-set frame with the earliest first access, else the kth-set frame with
the earliest most-recent access, ties broken by frame id).  In particular,
with K=2 and accesses A,B,A,B,C all evictable the next victim is C, and
after one more access to C the next victim is A = frame 0, the frame whose
2nd most recent access (time 1, against 2 for B and 5 for C) is oldest. -/
theorem c2_lruk_policy :
    (∀ numFrames k ops, C2Concl numFrames k ops) ∧
    (evict (runH 7 2 c2Ops1).1).1 = some 2 ∧
    (evict (runH 7 2 c2Ops2).1).1 = some 0 ∧
    kthMostRecent 2 ((alookup 0 (runH 7 2 c2Ops2).2).getD []) = some 1 ∧
    kthMostRecent 2 ((alookup 1 (runH 7 2 c2Ops2).2).getD []) = some 2 ∧
    kthMostRecent 2 ((alookup 2 (runH 7 2 c2Ops2).2).getD []) = some 5 :=
  ⟨c2_general, by decide, by decide, by decide, by decide, by decide⟩

/-- Witness: the general statement applied to a concrete run, with its
membership hypothesis discharged on a concrete kth-set node. -/
theorem c2_lruk_policy_witness :
    (2, 0) ∈ (runH 3 2 c2OpsCx).1.kthSet ∧
    2 = ((alookup 0 (runH 3 2 c2OpsCx).2).getD []).getLastD 0 :=
  ⟨by decide, ((c2_lruk_policy.1 3 2 c2OpsCx).1 2 0 (by decide)).2.2⟩

end LRUK

namespace BPM

/-- `INVALID_PAGE_ID`. -/
def invalidPid : Int := -1

/-- An in-memory page frame: identifier, data (abstracted to one word),
dirty flag and pin count (buffer_pool_manager_instance.cpp together with
the page fields it mutates). -/
structure Page where
  pageId : Int
  data : Nat
  dirty : Bool
  pin : Nat
  deriving Repr, DecidableEq

/-- A freshly constructed page: invalid id, zeroed memory, clean,
unpinned. -/
instance : Inhabited Page := ⟨⟨invalidPid, 0, false, 0⟩⟩

/-- Association-list lookup over `Int` keys (the page table maps page ids
to frame ids; the instantiation parameters of the `ExtendibleHashTable`
used for it live in a header that is not part of the sources, so the page
table is modelled from the spec as "a mapping from a key to a value"). -/
def ilookup {α : Type} (p : Int) : List (Int × α) → Option α
  | [] => none
  | (q, v) :: rest => if q = p then some v else ilookup p rest

/-- Association-list update-or-add over `Int` keys. -/
def iset {α : Type} (p : Int) (v : α) : List (Int × α) → List (Int × α)
  | [] => [(p, v)]
  | (q, w) :: rest => if q = p then (q, v) :: rest else (q, w) :: iset p v rest

/-- Association-list erase over `Int` keys. -/
def ierase {α : Type} (p : Int) : List (Int × α) → List (Int × α)
  | [] => []
  | (q, w) :: rest => if q = p then ierase p rest else (q, w) :: ierase p rest

/-- `BufferPoolManagerInstance` state: the frame array, the free list, the
page table, the replacer, the `next_page_id_` counter (starting at 0), and
the disk contents reachable through the disk manager. -/
structure BufferPool where
  poolSize : Nat
  pages : List Page
  freeList : List Nat
  pageTable : List (Int × Nat)
  replacer : LRUK.Replacer
  nextPageId : Int
  disk : List (Int × Nat)
  deriving Repr, DecidableEq

/-- The constructor: every frame fresh and on the free list. -/
def initBPM (poolSize replacerK : Nat) : BufferPool :=
  { poolSize := poolSize, pages := List.replicate poolSize default,
    freeList := List.range poolSize, pageTable := [],
    replacer := LRUK.initReplacer poolSize replacerK,
    nextPageId := 0, disk := [] }

/-- Observable side effects, in program order: disk writes and reads,
`ResetMemory` on a frame, and page-table removals and insertions. -/
inductive Ev where
  | writeDisk (pid : Int) (d : Nat)
  | readDisk (pid : Int)
  | resetMem (frame : Nat)
  | ptRemove (pid : Int)
  | ptInsert (pid : Int) (frame : Nat)
  deriving Repr, DecidableEq

/-- Result of a call that may run into the unchecked `Evict` failure: on
`undef` the C++ continues with an uninitialized frame id (the
`assert(replacer_->Evict(&frame_id))` is commented out), which is
undefined behaviour; nothing is claimed about it. -/
inductive Res (α : Type) where
  | ok (a : α) (s : BufferPool) (tr : List Ev)
  | undef
  deriving Repr, DecidableEq

/-- The tail of `NewPgImp` from `page_table_->Insert` on: install the page
id in the table, set the frame's id and pin count, record the access and
make the frame unevictable. -/
def installFrame (pid : Int) (f : Nat) (s : BufferPool) (tr : List Ev) :
    Res (Option (Int × Nat)) :=
  let s1 := { s with pageTable := iset pid f s.pageTable }
  let p := s1.pages.getD f default
  let s2 := { s1 with pages := s1.pages.set f { p with pageId := pid, pin := 1 } }
  let rep1 := LRUK.recordAccess s2.replacer f
  let rep2 := LRUK.setEvictable rep1 f false
  Res.ok (some (pid, f)) { s2 with replacer := rep2 } (tr ++ [Ev.ptInsert pid f])

/-- The eviction block shared by `NewPgImp` and `FetchPgImp`: evict a
victim, write it back if dirty (clearing its dirty bit), reset the frame
memory and drop the victim's page-table entry. -/
def evictFrame (s : BufferPool) : Option (Nat × BufferPool × List Ev) :=
  match LRUK.evict s.replacer with
  | (none, _) => none
  | (some f, rep) =>
      let s1 := { s with replacer := rep }
      let victim := s1.pages.getD f default
      let s2 :=
        if victim.dirty then
          { s1 with
            disk := iset victim.pageId victim.data s1.disk,
            pages := s1.pages.set f { victim with dirty := false } }
        else s1
      let tr1 := if victim.dirty then [Ev.writeDisk victim.pageId victim.data] else []
      let p2 := s2.pages.getD f default
      let s3 := { s2 with pages := s2.pages.set f { p2 with data := 0 } }
      let s4 := { s3 with pageTable := ierase victim.pageId s3.pageTable }
      some (f, s4, tr1 ++ [Ev.resetMem f, Ev.ptRemove victim.pageId])

/-- `NewPgImp`: return null if every frame is pinned; otherwise allocate a
page id, take a frame from the free list or from the replacer, and install
a pinned, unevictable page in it. -/
def newPage (s : BufferPool) : Res (Option (Int × Nat)) :=
  if (List.range s.poolSize).all (fun i => (s.pages.getD i default).pin ≠ 0) then
    Res.ok none s []
  else
    let pid := s.nextPageId
    let s1 := { s with nextPageId := s.nextPageId + 1 }
    match s1.freeList with
    | f :: rest => installFrame pid f { s1 with freeList := rest } []
    | [] =>
        match evictFrame s1 with
        | none => Res.undef
        | some (f, s2, tr) => installFrame pid f s2 tr

/-- The tail of `FetchPgImp` on a miss: install the page-table entry, set
the frame's id and pin count, read the page from disk, record the access
and make the frame unevictable. -/
def fetchInstall (pid : Int) (f : Nat) (s : BufferPool) (tr : List Ev) :
    Res (Option (Int × Nat)) :=
  let s1 := { s with pageTable := iset pid f s.pageTable }
  let p := s1.pages.getD f default
  let p1 : Page :=
    { pageId := pid, pin := 1, dirty := p.dirty,
      data := (ilookup pid s1.disk).getD 0 }
  let s2 := { s1 with pages := s1.pages.set f p1 }
  let rep1 := LRUK.recordAccess s2.replacer f
  let rep2 := LRUK.setEvictable rep1 f false
  Res.ok (some (pid, f)) { s2 with replacer := rep2 }
    (tr ++ [Ev.ptInsert pid f, Ev.readDisk pid])

/-- `FetchPgImp`: pin and return a resident page, else acquire a frame as
`NewPgImp` does, install the page and read its data from disk. -/
def fetchPage (s : BufferPool) (pid : Int) : Res (Option (Int × Nat)) :=
  match ilookup pid s.pageTable with
  | some f =>
      let p := s.pages.getD f default
      let s1 := { s with pages := s.pages.set f { p with pin := p.pin + 1 } }
      let rep1 := LRUK.recordAccess s1.replacer f
      let rep2 := LRUK.setEvictable rep1 f false
      Res.ok (some (pid, f)) { s1 with replacer := rep2 } []
  | none =>
      if (List.range s.poolSize).all (fun i => (s.pages.getD i default).pin ≠ 0) then
        Res.ok none s []
      else
        match s.freeList with
        | f :: rest =>
            fetchInstall pid f { s with freeList := rest } []
        | [] =>
            match evictFrame s with
            | none => Res.undef
            | some (f, s2, tr) => fetchInstall pid f s2 tr

/-- `UnpinPgImp`: false when the page is not resident or its pin count is
already zero; otherwise or-assign the dirty bit, decrement the pin count
and mark the frame evictable when it reaches zero. -/
def unpinPage (s : BufferPool) (pid : Int) (isDirty : Bool) :
    Bool × BufferPool :=
  match ilookup pid s.pageTable with
  | none => (false, s)
  | some f =>
      let p := s.pages.getD f default
      if p.pin = 0 then (false, s)
      else
        let p1 := if isDirty then { p with dirty := isDirty } else p
        let p2 := { p1 with pin := p1.pin - 1 }
        let s1 := { s with pages := s.pages.set f p2 }
        if p2.pin = 0 then
          (true, { s1 with replacer := LRUK.setEvictable s1.replacer f true })
        else (true, s1)

/-- `FlushPgImp`: false on `INVALID_PAGE_ID` or a non-resident page, else
write the frame data to disk unconditionally and return true.  The source
does not touch the dirty bit. -/
def flushPage (s : BufferPool) (pid : Int) : Bool × BufferPool :=
  if pid = invalidPid then (false, s)
  else
    match ilookup pid s.pageTable with
    | none => (false, s)
    | some f =>
        (true, { s with disk := iset pid (s.pages.getD f default).data s.disk })

theorem alookup_mem {α : Type} (f : Nat) (v : α) :
    ∀ l : List (Nat × α), LRUK.alookup f l = some v → (f, v) ∈ l := by
  intro l
  induction l with
  | nil => intro hc; cases hc
  | cons p rest ih =>
      obtain ⟨g, w⟩ := p
      intro hl
      by_cases hg : g = f
      · subst hg
        rw [show LRUK.alookup g ((g, w) :: rest) = some w by
          simp [LRUK.alookup]] at hl
        cases hl
        exact List.mem_cons_self _ _
      · rw [show LRUK.alookup f ((g, w) :: rest) = LRUK.alookup f rest by
          simp [LRUK.alookup, hg]] at hl
        exact List.mem_cons_of_mem _ (ih hl)

theorem ilookup_mem {α : Type} (p : Int) (v : α) :
    ∀ l : List (Int × α), ilookup p l = some v → (p, v) ∈ l := by
  intro l
  induction l with
  | nil => intro hc; cases hc
  | cons q rest ih =>
      obtain ⟨q1, w⟩ := q
      intro hl
      by_cases hg : q1 = p
      · subst hg
        rw [show ilookup q1 ((q1, w) :: rest) = some w by simp [ilookup]] at hl
        cases hl
        exact List.mem_cons_self _ _
      · rw [show ilookup p ((q1, w) :: rest) = ilookup p rest by
          simp [ilookup, hg]] at hl
        exact List.mem_cons_of_mem _ (ih hl)

/-- Well-formedness of a buffer pool state, maintained by the operations:
the frame array has `poolSize` slots; free-list frames are in range and
unknown to the replacer; every unpinned frame is on the free list or
evictable; evictable frames are tracked and sit in one of the replacer's
sets; set members are in-range frames; and resident frames are in range,
tracked, and unevictable while pinned. -/
def WF (s : BufferPool) : Prop :=
  s.pages.length = s.poolSize ∧
  (∀ f ∈ s.freeList, f < s.poolSize) ∧
  (∀ f ∈ s.freeList,
      LRUK.alookup f s.replacer.frameCnt = none ∧
      LRUK.alookup f s.replacer.frameTime = none ∧
      (LRUK.alookup f s.replacer.evitable).getD false = false) ∧
  (∀ i, i < s.poolSize → (s.pages.getD i default).pin = 0 →
      i ∈ s.freeList ∨ (LRUK.alookup i s.replacer.evitable).getD false = true) ∧
  (∀ p ∈ s.replacer.evitable, p.2 = true →
      p.1 ∈ (s.replacer.infSet.map Prod.snd ++ s.replacer.kthSet.map Prod.snd)) ∧
  (∀ p ∈ s.replacer.infSet ++ s.replacer.kthSet, p.2 < s.poolSize) ∧
  (∀ p ∈ s.pageTable, p.2 < s.poolSize ∧
      (LRUK.alookup p.2 s.replacer.frameTime).isSome ∧
      ((s.pages.getD p.2 default).pin ≠ 0 →
        (LRUK.alookup p.2 s.replacer.evitable).getD false = false))

/-- Recording an access to a frame unknown to the replacer and then
marking it unevictable leaves the frame unevictable (also when the
capacity guard makes `RecordAccess` a no-op). -/
theorem record_then_unevictable (r : LRUK.Replacer) (f : Nat)
    (hcnt : LRUK.alookup f r.frameCnt = none)
    (htime : LRUK.alookup f r.frameTime = none)
    (hev : (LRUK.alookup f r.evitable).getD false = false) :
    (LRUK.alookup f
      (LRUK.setEvictable (LRUK.recordAccess r f) f false).evitable).getD false =
      false := by
  by_cases hsz : r.replacerSize = 0
  · have h1 : LRUK.recordAccess r f = { r with clock := r.clock + 1 } := by
      simp [LRUK.recordAccess, hcnt, hsz]
    rw [h1]
    have h2 : LRUK.setEvictable ({ r with clock := r.clock + 1 } : LRUK.Replacer)
        f false = { r with clock := r.clock + 1 } := by
      simp [LRUK.setEvictable, htime]
    rw [h2]
    exact hev
  · have hc0 : (LRUK.alookup f r.frameCnt).getD 0 = 0 := by rw [hcnt]; rfl
    have h1 : LRUK.recordAccess r f =
        { r with
          clock := r.clock + 1,
          evitable := LRUK.aset f false r.evitable,
          frameTime := LRUK.aset f (r.clock + 1) r.frameTime,
          replacerSize := r.replacerSize - 1,
          frameCnt := LRUK.aset f 1 r.frameCnt } := by
      by_cases hk1 : r.k ≤ 1 <;>
        simp [LRUK.recordAccess, hcnt, hsz, hc0, hk1, LRUK.alookup_aset_self,
          LRUK.aset_aset]
    rw [h1]
    have h2 : ∀ r2 : LRUK.Replacer,
        LRUK.alookup f r2.evitable = some false →
        (LRUK.alookup f r2.frameTime).isSome →
        LRUK.setEvictable r2 f false = r2 := by
      intro r2 he2 ht2
      have : (LRUK.alookup f r2.frameTime).isNone = false := by
        rcases Option.isSome_iff_exists.mp ht2 with ⟨t, ht⟩
        simp [ht]
      simp [LRUK.setEvictable, this, he2]
    rw [h2 _ (by simp [LRUK.alookup_aset_self])
      (by simp [LRUK.alookup_aset_self])]
    simp [LRUK.alookup_aset_self]

/-- When one of its sets is non-empty, `Evict` succeeds and drops the
victim's record. -/
theorem evict_succeeds (r : LRUK.Replacer)
    (hne : r.infSet ≠ [] ∨ r.kthSet ≠ []) :
    ∃ f rep, LRUK.evict r = (some f, rep) ∧
      rep.frameCnt = LRUK.aerase f r.frameCnt ∧
      rep.frameTime = LRUK.aerase f r.frameTime ∧
      rep.evitable = LRUK.aerase f r.evitable ∧
      (∃ t, (t, f) ∈ r.infSet ∨ (t, f) ∈ r.kthSet) := by
  cases hinf : r.infSet with
  | cons hd rest =>
      refine ⟨hd.2, LRUK.removeRecord { r with infSet := rest } hd.2,
        ?_, rfl, rfl, rfl, hd.1, Or.inl ?_⟩
      · simp [LRUK.evict, LRUK.evitFromSet, hinf]
      · simp
  | nil =>
      cases hkth : r.kthSet with
      | nil =>
          exfalso
          rcases hne with hne | hne
          · exact hne hinf
          · exact hne hkth
      | cons hd rest =>
          refine ⟨hd.2, LRUK.removeRecord { r with kthSet := rest } hd.2,
            ?_, rfl, rfl, rfl, hd.1, Or.inr ?_⟩
          · simp [LRUK.evict, LRUK.evitFromSet, hinf, hkth]
          · simp

/-- State extractor for a `Res` (fallback for the undefined case). -/
def stateOf (r : Res (Option (Int × Nat))) (s0 : BufferPool) : BufferPool :=
  match r with
  | .ok _ s _ => s
  | .undef => s0

/-- The pool of size 1 after one `NewPage`: frame 0 holds page 0, pinned
once, unevictable. -/
def onePinned : BufferPool := stateOf (newPage (initBPM 1 2)) (initBPM 1 2)

/-- `onePinned` after `UnpinPage(0, true)`: frame 0 dirty, unpinned,
evictable. -/
def oneDirty : BufferPool := (unpinPage onePinned 0 true).2

/-- C10: whenever `NewPgImp` returns null it does so before
`AllocatePage`, so the state is entirely unchanged (in particular
`next_page_id_` is not incremented) and nothing observable happens. -/
theorem c10_newPage_null_unchanged (s s' : BufferPool) (tr : List Ev)
    (h : newPage s = Res.ok none s' tr) : s' = s ∧ tr = [] := by
  simp only [newPage] at h
  split at h
  · cases h
    exact ⟨rfl, rfl⟩
  · split at h
    · simp [installFrame] at h
    · split at h
      · exact (Res.noConfusion h)
      · simp [installFrame] at h

theorem c10_newPage_null_unchanged_witness :
    newPage onePinned = Res.ok none onePinned [] ∧
      (onePinned = onePinned ∧ ([] : List Ev) = []) :=
  ⟨by decide, c10_newPage_null_unchanged onePinned onePinned [] (by decide)⟩

/-- C4 counterexample: flush a resident dirty page; `FlushPgImp` returns
true but the dirty bit is still set afterwards, contradicting "clears the
page's dirty flag". -/
theorem c4_flush_keeps_dirty :
    (oneDirty.pages.getD 0 default).dirty = true ∧
    (flushPage oneDirty 0).1 = true ∧
    ((flushPage oneDirty 0).2.pages.getD 0 default).dirty = true := by decide

/-- C4 (amended): `FlushPgImp` returns false on `INVALID_PAGE_ID` or a
non-resident page and otherwise writes the frame data to disk
unconditionally and returns true; the resulting state keeps the frame
array (hence every dirty bit) unchanged. -/
theorem c4_flushPage (s : BufferPool) (pid : Int) :
    (pid = invalidPid → flushPage s pid = (false, s)) ∧
    (ilookup pid s.pageTable = none → flushPage s pid = (false, s)) ∧
    (∀ f, pid ≠ invalidPid → ilookup pid s.pageTable = some f →
      flushPage s pid =
        (true, { s with disk := iset pid (s.pages.getD f default).data s.disk })) := by
  refine ⟨?_, ?_, ?_⟩
  · intro h
    simp [flushPage, h]
  · intro h
    by_cases hp : pid = invalidPid
    · simp [flushPage, hp]
    · simp [flushPage, hp, h]
  · intro f hp hf
    simp [flushPage, hp, hf]

theorem c4_flushPage_witness :
    flushPage oneDirty 0 =
      (true, { oneDirty with
        disk := iset 0 (oneDirty.pages.getD 0 default).data oneDirty.disk }) :=
  (c4_flushPage oneDirty 0).2.2 0 (by decide) (by decide)

/-- Marking a tracked, currently unevictable frame evictable makes it
evictable. -/
theorem setEvictable_true_evitable (r : LRUK.Replacer) (f : Nat)
    (htime : (LRUK.alookup f r.frameTime).isSome)
    (hev : (LRUK.alookup f r.evitable).getD false = false) :
    (LRUK.alookup f (LRUK.setEvictable r f true).evitable).getD false = true := by
  rcases Option.isSome_iff_exists.mp htime with ⟨t, ht⟩
  rw [LRUK.setEvictable, if_neg (by simp [ht, hev])]
  simp only [LRUK.insertToSet]
  split_ifs <;> simp [LRUK.alookup_aset_self]

/-- `installFrame` written out as one record update. -/
theorem installFrame_eq (pid : Int) (f : Nat) (s : BufferPool) (tr : List Ev) :
    installFrame pid f s tr =
      Res.ok (some (pid, f))
        { s with
          pageTable := iset pid f s.pageTable,
          pages := s.pages.set f
            { s.pages.getD f default with pageId := pid, pin := 1 },
          replacer := LRUK.setEvictable (LRUK.recordAccess s.replacer f) f false }
        (tr ++ [Ev.ptInsert pid f]) := rfl

/-- The trace of one eviction: the conditional write-back, then the memory
reset, then the page-table removal. -/
def evictTrace (victim : Page) (f : Nat) : List Ev :=
  (if victim.dirty then [Ev.writeDisk victim.pageId victim.data] else []) ++
  [Ev.resetMem f, Ev.ptRemove victim.pageId]

/-- `evictFrame` written out as one record update, when `Evict` yields a
victim whose frame index is in range. -/
theorem evictFrame_char (s : BufferPool) (f : Nat) (rep : LRUK.Replacer)
    (hev : LRUK.evict s.replacer = (some f, rep)) (hfl : f < s.pages.length) :
    evictFrame s = some (f,
      { s with
        replacer := rep,
        disk := if (s.pages.getD f default).dirty
          then iset (s.pages.getD f default).pageId (s.pages.getD f default).data
                 s.disk
          else s.disk,
        pages := s.pages.set f
          { s.pages.getD f default with dirty := false, data := 0 },
        pageTable := ierase (s.pages.getD f default).pageId s.pageTable },
      evictTrace (s.pages.getD f default) f) := by
  cases hdirty : s.pages[f].dirty
  · simp [evictFrame, hev, hdirty, evictTrace, List.getD_eq_getElem?_getD, hfl]
  · simp [evictFrame, hev, hdirty, evictTrace, List.getD_eq_getElem?_getD,
      List.set_set, List.getElem?_set_self, hfl]

/-- C6: `UnpinPgImp` on a resident page with positive pin count returns
true, decrements the pin count, or-assigns the dirty bit, touches no other
frame, and marks the frame evictable exactly when the pin count reaches
zero; on a non-resident page or a pin count of zero it returns false and
leaves the state unchanged. -/
theorem c6_unpinPage (s : BufferPool) (pid : Int) (d : Bool) (hwf : WF s) :
    (ilookup pid s.pageTable = none → unpinPage s pid d = (false, s)) ∧
    (∀ f, ilookup pid s.pageTable = some f →
      ((s.pages.getD f default).pin = 0 → unpinPage s pid d = (false, s)) ∧
      (0 < (s.pages.getD f default).pin →
        (unpinPage s pid d).1 = true ∧
        ((unpinPage s pid d).2.pages.getD f default).pin =
          (s.pages.getD f default).pin - 1 ∧
        ((unpinPage s pid d).2.pages.getD f default).dirty =
          (d || (s.pages.getD f default).dirty) ∧
        (∀ g, g ≠ f →
          (unpinPage s pid d).2.pages.getD g default = s.pages.getD g default) ∧
        ((LRUK.alookup f (unpinPage s pid d).2.replacer.evitable).getD false =
            true ↔ (s.pages.getD f default).pin - 1 = 0))) := by
  obtain ⟨hlen, _, _, _, _, _, hpt⟩ := hwf
  refine ⟨?_, ?_⟩
  · intro h
    simp [unpinPage, h]
  · intro f hf
    have hmem := ilookup_mem pid f s.pageTable hf
    obtain ⟨hflt, htime, hunev⟩ := hpt (pid, f) hmem
    refine ⟨?_, ?_⟩
    · intro hz
      simp only [unpinPage, hf]
      rw [if_pos hz]
    · intro hpos
      have hnz : ¬ (s.pages.getD f default).pin = 0 := by omega
      have hev0 : (LRUK.alookup f s.replacer.evitable).getD false = false :=
        hunev hnz
      have hfl2 : f < s.pages.length := by rw [hlen]; exact hflt
      have heq : unpinPage s pid d =
          (true, { s with
            pages := s.pages.set f
              { pageId := (s.pages.getD f default).pageId,
                data := (s.pages.getD f default).data,
                dirty := (d || (s.pages.getD f default).dirty),
                pin := (s.pages.getD f default).pin - 1 },
            replacer := if (s.pages.getD f default).pin - 1 = 0
              then LRUK.setEvictable s.replacer f true
              else s.replacer }) := by
        simp only [unpinPage, hf]
        rw [if_neg hnz]
        cases d
        · rw [if_neg (by decide : ¬ (false = true))]
          simp only [Bool.false_or]
          by_cases hone : (s.pages.getD f default).pin - 1 = 0
          · rw [if_pos hone, if_pos hone]
          · rw [if_neg hone, if_neg hone]
        · rw [if_pos (rfl : (true = true))]
          dsimp only
          simp only [Bool.true_or]
          by_cases hone : (s.pages.getD f default).pin - 1 = 0
          · rw [if_pos hone, if_pos hone]
          · rw [if_neg hone, if_neg hone]
      refine ⟨by rw [heq], ?_, ?_, ?_, ?_⟩
      · rw [heq]
        dsimp only
        rw [EHT.getD_set_self _ _ _ _ hfl2]
      · rw [heq]
        dsimp only
        rw [EHT.getD_set_self _ _ _ _ hfl2]
      · intro g hg
        rw [heq]
        dsimp only
        exact EHT.getD_set_ne _ _ _ _ _ (Ne.symm hg)
      · rw [heq]
        dsimp only
        by_cases hone : (s.pages.getD f default).pin - 1 = 0
        · rw [if_pos hone]
          exact ⟨fun _ => hone,
            fun _ => setEvictable_true_evitable s.replacer f htime hev0⟩
        · rw [if_neg hone]
          refine ⟨fun hx => ?_, fun hx => absurd hx hone⟩
          rw [hev0] at hx
          cases hx

theorem c6_unpinPage_witness :
    (unpinPage onePinned 0 true).1 = true ∧
    ((unpinPage onePinned 0 true).2.pages.getD 0 default).pin =
      (onePinned.pages.getD 0 default).pin - 1 ∧
    ((LRUK.alookup 0 (unpinPage onePinned 0 true).2.replacer.evitable).getD
        false = true ↔ (onePinned.pages.getD 0 default).pin - 1 = 0) := by
  have h := c6_unpinPage onePinned 0 true (by unfold WF; decide)
  have h2 := (h.2 0 (by decide)).2 (by decide)
  exact ⟨h2.1, h2.2.1, h2.2.2.2.2⟩

/-- C5: `NewPgImp` returns null exactly when every frame is pinned;
otherwise it allocates the next page id (incrementing the counter), takes
a frame from the free list or evicts a victim, and returns that frame
holding the new page with pin count 1 and not evictable; concretely, with
`pool_size=1`, two `NewPage` calls without an unpin return first page 0 in
frame 0, then null. -/
theorem c5_newPage :
    (∀ s : BufferPool, WF s →
      ((∀ i, i < s.poolSize → (s.pages.getD i default).pin ≠ 0) →
          newPage s = Res.ok none s []) ∧
      ((∃ i, i < s.poolSize ∧ (s.pages.getD i default).pin = 0) →
        ∃ f s' tr, newPage s = Res.ok (some (s.nextPageId, f)) s' tr ∧
          f < s.poolSize ∧
          (s'.pages.getD f default).pin = 1 ∧
          (s'.pages.getD f default).pageId = s.nextPageId ∧
          (LRUK.alookup f s'.replacer.evitable).getD false = false ∧
          s'.nextPageId = s.nextPageId + 1)) ∧
    newPage (initBPM 1 2) = Res.ok (some (0, 0)) onePinned [Ev.ptInsert 0 0] ∧
    newPage onePinned = Res.ok none onePinned [] := by
  refine ⟨?_, by decide, by decide⟩
  intro s hwf
  obtain ⟨hlen, hfl_lt, hfl_rep, hpin0, hevset, hsetlt, _⟩ := hwf
  constructor
  · intro hall
    have hb : ((List.range s.poolSize).all
        (fun i => (s.pages.getD i default).pin ≠ 0)) = true := by
      rw [List.all_eq_true]
      intro i hi
      simpa using hall i (List.mem_range.mp hi)
    rw [newPage, if_pos hb]
  · rintro ⟨i, hi, hpin⟩
    have hallf : ¬ ((List.range s.poolSize).all
        (fun j => (s.pages.getD j default).pin ≠ 0)) = true := by
      rw [List.all_eq_true]
      intro hcon
      exact absurd hpin (of_decide_eq_true (hcon i (List.mem_range.mpr hi)))
    cases hfl : s.freeList with
    | cons f rest =>
        have hmemf : f ∈ s.freeList := by
          rw [hfl]
          exact List.mem_cons_self _ _
        have hflt : f < s.poolSize := hfl_lt f hmemf
        obtain ⟨hc, ht, he⟩ := hfl_rep f hmemf
        have hfl2 : f < s.pages.length := by rw [hlen]; exact hflt
        have heq : newPage s = installFrame s.nextPageId f
            { s with nextPageId := s.nextPageId + 1, freeList := rest } [] := by
          rw [newPage, if_neg hallf]
          dsimp only
          rw [hfl]
        rw [heq, installFrame_eq]
        refine ⟨f, _, _, rfl, hflt, ?_, ?_, ?_, rfl⟩
        · dsimp only
          rw [EHT.getD_set_self _ _ _ _ hfl2]
        · dsimp only
          rw [EHT.getD_set_self _ _ _ _ hfl2]
        · exact record_then_unevictable s.replacer f hc ht he
    | nil =>
        have hne : s.replacer.infSet ≠ [] ∨ s.replacer.kthSet ≠ [] := by
          rcases hpin0 i hi hpin with hmem | hevi
          · rw [hfl] at hmem
            cases hmem
          · have hlk : LRUK.alookup i s.replacer.evitable = some true := by
              cases hlk2 : LRUK.alookup i s.replacer.evitable with
              | none => rw [hlk2] at hevi; cases hevi
              | some b =>
                  rw [hlk2] at hevi
                  cases b
                  · cases hevi
                  · rfl
            have hsets := hevset (i, true) (alookup_mem i true _ hlk) rfl
            rcases List.mem_append.mp hsets with h | h
            · left
              intro hnil
              rw [hnil] at h
              cases h
            · right
              intro hnil
              rw [hnil] at h
              cases h
        obtain ⟨f, rep, hev, hcnt2, htime2, hevit2, t, htmem⟩ :=
          evict_succeeds s.replacer hne
        have hflt : f < s.poolSize := by
          rcases htmem with h | h
          · exact hsetlt (t, f) (List.mem_append.mpr (Or.inl h))
          · exact hsetlt (t, f) (List.mem_append.mpr (Or.inr h))
        have hfl2 : f < s.pages.length := by rw [hlen]; exact hflt
        have hevf := evictFrame_char
          { s with nextPageId := s.nextPageId + 1 } f rep hev hfl2
        have heq : newPage s = installFrame s.nextPageId f
            ({ s with nextPageId := s.nextPageId + 1 } |>
              fun s1 => { s1 with
                replacer := rep,
                disk := if (s1.pages.getD f default).dirty
                  then iset (s1.pages.getD f default).pageId
                        (s1.pages.getD f default).data s1.disk
                  else s1.disk,
                pages := s1.pages.set f
                  { s1.pages.getD f default with dirty := false, data := 0 },
                pageTable := ierase (s1.pages.getD f default).pageId
                  s1.pageTable })
            (evictTrace (s.pages.getD f default) f) := by
          rw [hfl] at hevf
          rw [newPage, if_neg hallf]
          dsimp only
          rw [hfl, hevf]
        rw [heq, installFrame_eq]
        refine ⟨f, _, _, rfl, hflt, ?_, ?_, ?_, rfl⟩
        · dsimp only
          rw [EHT.getD_set_self _ _ _ _ (by simpa using hfl2)]
        · dsimp only
          rw [EHT.getD_set_self _ _ _ _ (by simpa using hfl2)]
        · dsimp only
          refine record_then_unevictable rep f ?_ ?_ ?_
          · rw [hcnt2]
            exact LRUK.alookup_aerase_self f _
          · rw [htime2]
            exact LRUK.alookup_aerase_self f _
          · rw [hevit2, LRUK.alookup_aerase_self]
            rfl

theorem c5_newPage_witness :
    (newPage onePinned = Res.ok none onePinned []) ∧
    (∃ f s' tr,
      newPage (initBPM 1 2) =
        Res.ok (some ((initBPM 1 2).nextPageId, f)) s' tr ∧
      f < (initBPM 1 2).poolSize ∧
      (s'.pages.getD f default).pin = 1 ∧
      (s'.pages.getD f default).pageId = (initBPM 1 2).nextPageId ∧
      (LRUK.alookup f s'.replacer.evitable).getD false = false ∧
      s'.nextPageId = (initBPM 1 2).nextPageId + 1) :=
  ⟨(c5_newPage.1 onePinned (by unfold WF; decide)).1 (by decide),
   (c5_newPage.1 (initBPM 1 2) (by unfold WF; decide)).2
     ⟨0, by decide, by decide⟩⟩

/-- C9: when `NewPgImp` or `FetchPgImp` evicts a victim, the observable
effects are, in order: the disk write of the victim's data if and only if
it is dirty, then the frame-memory reset, then the removal of the
victim's page-table entry, then the insertion of the new page id's entry
(and for Fetch the disk read); so a dirty victim is written back before
its frame is overwritten and the old page-table entry is removed before
the new one is installed. -/
theorem c9_evict_order (s : BufferPool) (pid : Int) (f : Nat)
    (rep : LRUK.Replacer)
    (hfl : s.freeList = [])
    (hev : LRUK.evict s.replacer = (some f, rep))
    (hflt : f < s.pages.length)
    (hnp : ((List.range s.poolSize).all
        (fun i => (s.pages.getD i default).pin ≠ 0)) = false)
    (hpid : ilookup pid s.pageTable = none) :
    (∃ s', newPage s =
        Res.ok (some (s.nextPageId, f)) s'
          (evictTrace (s.pages.getD f default) f ++
            [Ev.ptInsert s.nextPageId f])) ∧
    (∃ s', fetchPage s pid =
        Res.ok (some (pid, f)) s'
          (evictTrace (s.pages.getD f default) f ++
            [Ev.ptInsert pid f, Ev.readDisk pid])) ∧
    ((s.pages.getD f default).dirty = true →
      List.Sublist
        [Ev.writeDisk (s.pages.getD f default).pageId
           (s.pages.getD f default).data,
         Ev.resetMem f]
        (evictTrace (s.pages.getD f default) f)) ∧
    List.Sublist
      [Ev.ptRemove (s.pages.getD f default).pageId, Ev.ptInsert s.nextPageId f]
      (evictTrace (s.pages.getD f default) f ++ [Ev.ptInsert s.nextPageId f]) := by
  have hallf : ¬ ((List.range s.poolSize).all
      (fun i => (s.pages.getD i default).pin ≠ 0)) = true := by
    rw [hnp]
    decide
  refine ⟨?_, ?_, ?_, ?_⟩
  · have hevf := evictFrame_char
      { s with nextPageId := s.nextPageId + 1 } f rep hev hflt
    rw [hfl] at hevf
    rw [newPage, if_neg hallf]
    dsimp only
    rw [hfl, hevf]
    exact ⟨_, rfl⟩
  · have hevf := evictFrame_char s f rep hev hflt
    rw [fetchPage, hpid]
    rw [if_neg hallf]
    dsimp only
    rw [hfl, hevf]
    exact ⟨_, rfl⟩
  · intro hd
    rw [evictTrace, hd, if_pos (rfl : (true = true))]
    exact List.Sublist.append
      (List.Sublist.refl [Ev.writeDisk (s.pages.getD f default).pageId
        (s.pages.getD f default).data])
      (List.sublist_append_left [Ev.resetMem f]
        [Ev.ptRemove (s.pages.getD f default).pageId])
  · rw [evictTrace, List.append_assoc]
    refine List.Sublist.trans ?_ (List.sublist_append_right _ _)
    exact List.Sublist.append
      (List.sublist_append_right [Ev.resetMem f]
        [Ev.ptRemove (s.pages.getD f default).pageId])
      (List.Sublist.refl [Ev.ptInsert s.nextPageId f])

theorem c9_evict_order_witness :
    ∃ s', newPage oneDirty =
      Res.ok (some (oneDirty.nextPageId, 0)) s'
        (evictTrace (oneDirty.pages.getD 0 default) 0 ++
          [Ev.ptInsert oneDirty.nextPageId 0]) :=
  (c9_evict_order oneDirty 5 0 ((LRUK.evict oneDirty.replacer).2)
    (by decide) (by decide) (by decide) (by decide) (by decide)).1

end BPM

namespace BPT

/-- A leaf page (b_plus_tree_page / b_plus_tree_leaf_page headers are not
part of the sources; the fields are the ones b_plus_tree.cpp manipulates):
sorted key/record pairs, the next-leaf pointer and the parent pointer. -/
structure LeafNode where
  entries : List (Nat × Nat)
  next : Int
  parent : Int
  deriving Repr, DecidableEq

/-- An internal page: (key, child) slots where the key of slot 0 is unused
(stored as 0), and the parent pointer. -/
structure InternalNode where
  entries : List (Nat × Int)
  parent : Int
  deriving Repr, DecidableEq

/-- A B+-tree page. -/
inductive BNode where
  | leaf (l : LeafNode)
  | internal (n : InternalNode)
  deriving Repr, DecidableEq

/-- `BPlusTree` state: the pages reachable through the buffer pool, the
root page id (`INVALID_PAGE_ID` when empty), the allocation counter, the
`leaf_max_size_`/`internal_max_size_` bounds and `right_most_`. -/
structure BTree where
  pages : List (Int × BNode)
  rootPageId : Int
  nextPageId : Int
  leafMax : Nat
  internalMax : Nat
  rightMost : Int
  deriving Repr, DecidableEq

/-- An empty tree. -/
def initBTree (leafMax internalMax : Nat) : BTree :=
  { pages := [], rootPageId := BPM.invalidPid, nextPageId := 1,
    leafMax := leafMax, internalMax := internalMax,
    rightMost := BPM.invalidPid }

def parentOf : BNode → Int
  | BNode.leaf l => l.parent
  | BNode.internal n => n.parent

def withParent : BNode → Int → BNode
  | BNode.leaf l, p => BNode.leaf { l with parent := p }
  | BNode.internal n, p => BNode.internal { n with parent := p }

/-- Modelled from the spec: `InternalPage::Search` composed with
`FetchChildPage` — "at each internal node locate the largest slot i such
that key_i ≤ k (slot 0 has no key, acts as less-than key_1); descend to
child_i" (the header holding the binary search is not in the sources). -/
def searchChild (k : Nat) (c : Int) : List (Nat × Int) → Int
  | [] => c
  | e :: rest => if k < e.1 then c else searchChild k e.2 rest

/-- Modelled from the spec: `LeafPage::Insert` — keep the pairs sorted and
unique, return `none` on a duplicate key ("keys are unique; duplicate
insert returns false without modification"). -/
def leafInsert (k v : Nat) : List (Nat × Nat) → Option (List (Nat × Nat))
  | [] => some [(k, v)]
  | e :: rest =>
      if k = e.1 then none
      else if k < e.1 then some ((k, v) :: e :: rest)
      else (leafInsert k v rest).map (fun es => e :: es)

/-- Modelled from the spec: `InternalPage::LowerBound` + `InsertAt` — the
separator goes to its sorted slot after the keyless slot 0. -/
def insertSlot (k : Nat) (c : Int) : List (Nat × Int) → List (Nat × Int)
  | [] => [(k, c)]
  | e :: rest => if k < e.1 then (k, c) :: e :: rest else e :: insertSlot k c rest

/-- Modelled from the spec: `InternalPage` sorted insert skipping slot 0. -/
def insertKey (es : List (Nat × Int)) (k : Nat) (c : Int) : List (Nat × Int) :=
  match es with
  | [] => [(k, c)]
  | e0 :: rest => e0 :: insertSlot k c rest

/-- `FindLeafPage` for a sequential Insert (the latch crabbing has no
effect on the state reached): descend from `pid` to the leaf the key
belongs to.  The physical recursion is modelled with fuel. -/
def findLeaf (t : BTree) (k : Nat) : Nat → Int → Option (Int × LeafNode)
  | 0, _ => none
  | fuel + 1, pid =>
      match BPM.ilookup pid t.pages with
      | some (BNode.leaf l) => some (pid, l)
      | some (BNode.internal n) =>
          match n.entries with
          | [] => none
          | c0 :: rest => findLeaf t k fuel (searchChild k c0.2 rest)
      | none => none

/-- Update the parent pointer of every page in `cs` (`UpdateChild` on the
slots moved into a fresh right internal node). -/
def setParents (ps : List (Int × BNode)) (cs : List Int) (par : Int) :
    List (Int × BNode) :=
  cs.foldl (fun acc c =>
    match BPM.ilookup c acc with
    | some n => BPM.iset c (withParent n par) acc
    | none => acc) ps

/-- `InsertInParent`: grow a new root, insert the separator into a parent
with room, or split the parent (`InternalPage::Split` moving the upper
half, modelled from the spec) and recurse. -/
def insertInParent (t : BTree) : Nat → Int → Int → Nat → Option BTree
  | 0, _, _, _ => none
  | fuel + 1, leftPid, rightPid, key =>
      match BPM.ilookup leftPid t.pages, BPM.ilookup rightPid t.pages with
      | some leftN, some rightN =>
          if parentOf leftN = BPM.invalidPid then
            let rootPid := t.nextPageId
            some { t with
              pages := BPM.iset rootPid
                  (BNode.internal ⟨[(0, leftPid), (key, rightPid)], BPM.invalidPid⟩)
                  (BPM.iset rightPid (withParent rightN rootPid)
                  (BPM.iset leftPid (withParent leftN rootPid) t.pages)),
              rootPageId := rootPid,
              nextPageId := t.nextPageId + 1 }
          else
            match BPM.ilookup (parentOf leftN) t.pages with
            | some (BNode.internal p) =>
                if p.entries.length < t.internalMax then
                  some { t with
                    pages := BPM.iset (parentOf leftN)
                      (BNode.internal
                        { p with entries := insertKey p.entries key rightPid })
                      t.pages }
                else
                  let cmb := insertKey p.entries key rightPid
                  let keep := cmb.length - cmb.length / 2
                  let leftEs := cmb.take keep
                  let rightEs0 := cmb.drop keep
                  let prPid := t.nextPageId
                  let key0 := (rightEs0.headD (0, BPM.invalidPid)).1
                  let rightEs :=
                    (0, (rightEs0.headD (0, BPM.invalidPid)).2) :: rightEs0.tail
                  let t1 := { t with
                    pages := BPM.iset prPid
                        (BNode.internal ⟨rightEs, p.parent⟩)
                        (BPM.iset (parentOf leftN)
                          (BNode.internal { p with entries := leftEs })
                          (setParents t.pages (rightEs0.map Prod.snd) prPid)),
                    nextPageId := t.nextPageId + 1 }
                  insertInParent t1 fuel (parentOf leftN) prPid key0
            | _ => none
      | _, _ => none

/-- `BPlusTree::Insert` (sequential): the optimistic pass and the
pessimistic restart reach the same leaf, so the model finds the leaf once.
An empty tree first gets a fresh leaf root (`NewLeafRootPage`).  A safe
leaf (`IsSafe` for Insert: size < max_size, modelled from the spec) takes
the direct insert; a full leaf takes `InsertPessimistic`'s split path,
including the next-pointer assignment order of the source (right's next is
set from the leaf's, then the leaf's next is set from right's *current*
next).  Duplicate keys make `LeafPage::Insert` fail, and the state is
returned untouched. -/
def insert (t : BTree) (k v : Nat) (fuel : Nat) : Option (Bool × BTree) :=
  if t.rootPageId = BPM.invalidPid then
    let rootPid := t.nextPageId
    some (true, { t with
      pages := BPM.iset rootPid
        (BNode.leaf ⟨[(k, v)], BPM.invalidPid, BPM.invalidPid⟩) t.pages,
      rootPageId := rootPid,
      rightMost := rootPid,
      nextPageId := t.nextPageId + 1 })
  else
    match findLeaf t k fuel t.rootPageId with
    | none => none
    | some (pid, l) =>
        if l.entries.length < t.leafMax then
          match leafInsert k v l.entries with
          | none => some (false, t)
          | some es =>
              some (true, { t with
                pages := BPM.iset pid (BNode.leaf { l with entries := es })
                  t.pages })
        else
          match leafInsert k v l.entries with
          | none => some (false, t)
          | some es =>
              let rightPid := t.nextPageId
              let keep := es.length - es.length / 2
              let right1 : LeafNode :=
                { entries := es.drop keep, next := l.next, parent := l.parent }
              let left1 : LeafNode :=
                { l with entries := es.take keep, next := right1.next }
              let t1 := { t with
                pages := BPM.iset rightPid (BNode.leaf right1)
                  (BPM.iset pid (BNode.leaf left1) t.pages),
                nextPageId := t.nextPageId + 1,
                rightMost := if t.rightMost = pid then rightPid else t.rightMost }
              let key0 := ((es.drop keep).headD (0, 0)).1
              match insertInParent t1 fuel pid rightPid key0 with
              | none => none
              | some t2 => some (true, t2)

/-- `leaf_max_size=3`, `internal_max_size=4`. -/
def bt0 : BTree := initBTree 3 4

/-- Run one insert of key `k` (value `k`), with enough fuel. -/
def bIns (t : BTree) (k : Nat) : BTree :=
  match insert t k k 10 with
  | some (_, t2) => t2
  | none => t

/-- Keys 1,2,3,4 inserted into the empty tree: the fourth insert splits
the root leaf (page 1) into left `[1,2]` and right `[3,4]` (page 2) under
a new internal root (page 3). -/
def c1Tree : BTree := bIns (bIns (bIns (bIns bt0 1) 2) 3) 4

/-- C1: after the leaf split of the `leaf_max=3`, insert-1,2,3,4 scenario
the structure is as claimed (root keyed `[_,3]` over left `[1,2]` and
right `[3,4]`, right's next pointer equals the old leaf's) — except the
old leaf's next pointer: `InsertPessimistic` assigns
`leaf->SetNextPageId(right->GetNextPageId())` *after*
`right->SetNextPageId(leaf->GetNextPageId())`, so the old leaf's next
pointer keeps its pre-split value (INVALID here) instead of the right
sibling's page id: the leaf chain `left → right` is never created. -/
theorem c1_leaf_split_next_broken :
    BPM.ilookup 3 c1Tree.pages =
      some (BNode.internal ⟨[(0, 1), (3, 2)], BPM.invalidPid⟩) ∧
    c1Tree.rootPageId = 3 ∧
    BPM.ilookup 1 c1Tree.pages =
      some (BNode.leaf ⟨[(1, 1), (2, 2)], BPM.invalidPid, 3⟩) ∧
    BPM.ilookup 2 c1Tree.pages =
      some (BNode.leaf ⟨[(3, 3), (4, 4)], BPM.invalidPid, 3⟩) ∧
    ¬ (∃ l, BPM.ilookup 1 c1Tree.pages = some (BNode.leaf l) ∧
        l.next = 2) := by
  refine ⟨by decide, by decide, by decide, by decide, ?_⟩
  rintro ⟨l, hl, hn⟩
  rw [show BPM.ilookup 1 c1Tree.pages =
      some (BNode.leaf ⟨[(1, 1), (2, 2)], BPM.invalidPid, 3⟩) from by decide]
    at hl
  cases hl
  cases hn

/-- Bound check: `k` lies in the half-open interval `[lo, hi)` (an absent
bound is infinite). -/
def inBB (lo hi : Option Nat) (k : Nat) : Bool :=
  (match lo with
   | some l => decide (l ≤ k)
   | none => true) &&
  (match hi with
   | some h => decide (k < h)
   | none => true)

/-- Strictly increasing list of keys. -/
def sortedB : List Nat → Bool
  | [] => true
  | [_] => true
  | a :: b :: r => decide (a < b) && sortedB (b :: r)

/-- The children of an internal node paired with their separator-key
intervals: child 0 gets `[lo, k_1)`, child i gets `[k_i, k_{i+1})`, the
last child gets `[k_m, hi)`. -/
def childBounds (lo hi : Option Nat) (c0 : Int) :
    List (Nat × Int) → List (Int × Option Nat × Option Nat)
  | [] => [(c0, lo, hi)]
  | e :: rest => (c0, lo, some e.1) :: childBounds (some e.1) hi e.2 rest

/-- Well-formed subtree at `pid` with key bounds `[lo, hi)`, to depth
`fuel`: pages resolve, leaf keys are sorted and in range, internal
separator keys are sorted and in range, and every child is well-formed
within its separator interval. -/
def wfNode (t : BTree) : Nat → Int → Option Nat → Option Nat → Bool
  | 0, _, _, _ => false
  | fuel + 1, pid, lo, hi =>
      match BPM.ilookup pid t.pages with
      | some (BNode.leaf l) =>
          sortedB (l.entries.map Prod.fst) &&
          l.entries.all (fun e => inBB lo hi e.1)
      | some (BNode.internal n) =>
          match n.entries with
          | [] => false
          | c0 :: rest =>
              sortedB (rest.map Prod.fst) &&
              rest.all (fun e => inBB lo hi e.1) &&
              (childBounds lo hi c0.2 rest).all
                (fun b => wfNode t fuel b.1 b.2.1 b.2.2)
      | none => false

/-- All keys stored in the subtree at `pid`, to depth `fuel`. -/
def subKeys (t : BTree) : Nat → Int → List Nat
  | 0, _ => []
  | fuel + 1, pid =>
      match BPM.ilookup pid t.pages with
      | some (BNode.leaf l) => l.entries.map Prod.fst
      | some (BNode.internal n) =>
          match n.entries with
          | [] => []
          | c0 :: rest =>
              (c0.2 :: rest.map Prod.snd).foldr
                (fun c acc => subKeys t fuel c ++ acc) []
      | none => []

theorem sortedB_tail {a : Nat} {l : List Nat} (h : sortedB (a :: l) = true) :
    sortedB l = true := by
  cases l with
  | nil => rfl
  | cons b r =>
      rw [sortedB] at h
      exact ((Bool.and_eq_true _ _).mp h).2

theorem sortedB_head_lt {a : Nat} {l : List Nat} :
    sortedB (a :: l) = true → ∀ b ∈ l, a < b := by
  induction l generalizing a with
  | nil =>
      intro _ b hb
      cases hb
  | cons c r ih =>
      intro h b hb
      have h1 : a < c := by
        rw [sortedB] at h
        exact of_decide_eq_true ((Bool.and_eq_true _ _).mp h).1
      rcases List.mem_cons.mp hb with hb | hb
      · omega
      · have h2 := ih (sortedB_tail h) b hb
        omega

theorem inBB_lo {lo hi : Option Nat} {k : Nat} (h : inBB lo hi k = true) :
    ∀ l, lo = some l → l ≤ k := by
  intro l hl
  subst hl
  simp only [inBB, Bool.and_eq_true, decide_eq_true_eq] at h
  exact h.1

theorem inBB_hi {lo hi : Option Nat} {k : Nat} (h : inBB lo hi k = true) :
    ∀ hb, hi = some hb → k < hb := by
  intro hb hh
  subst hh
  simp only [inBB, Bool.and_eq_true, decide_eq_true_eq] at h
  exact h.2

theorem inBB_mk {lo hi : Option Nat} {k : Nat}
    (h1 : ∀ l, lo = some l → l ≤ k) (h2 : ∀ hb, hi = some hb → k < hb) :
    inBB lo hi k = true := by
  cases lo with
  | none =>
      cases hi with
      | none => rfl
      | some hb => simpa [inBB] using h2 hb rfl
  | some l0 =>
      cases hi with
      | none => simpa [inBB] using h1 l0 rfl
      | some hb =>
          simp only [inBB, Bool.and_eq_true, decide_eq_true_eq]
          exact ⟨h1 l0 rfl, h2 hb rfl⟩

theorem range_tail {lo hi : Option Nat} {e : Nat × Int}
    {rest : List (Nat × Int)}
    (hrange : ∀ e2 ∈ e :: rest, inBB lo hi e2.1 = true)
    (hsort : sortedB ((e :: rest).map Prod.fst) = true) :
    (∀ e2 ∈ rest, inBB (some e.1) hi e2.1 = true) ∧
    sortedB (rest.map Prod.fst) = true := by
  have hsort2 : sortedB (e.1 :: rest.map Prod.fst) = true := by
    simpa using hsort
  constructor
  · intro e2 he2
    apply inBB_mk
    · intro l0 hl0
      cases hl0
      have := sortedB_head_lt hsort2 e2.1 (List.mem_map_of_mem _ he2)
      omega
    · intro hb hhb
      exact inBB_hi (hrange e2 (List.mem_cons_of_mem _ he2)) hb hhb
  · exact sortedB_tail hsort2

theorem chain_inB (t : BTree) (fuel : Nat)
    (ih : ∀ pid lo hi, wfNode t fuel pid lo hi = true →
        ∀ k ∈ subKeys t fuel pid, inBB lo hi k = true) :
    ∀ (rest : List (Nat × Int)) (lo hi : Option Nat) (c : Int),
      (∀ e ∈ rest, inBB lo hi e.1 = true) →
      sortedB (rest.map Prod.fst) = true →
      ((childBounds lo hi c rest).all
        (fun b => wfNode t fuel b.1 b.2.1 b.2.2)) = true →
      ∀ k ∈ (c :: rest.map Prod.snd).foldr
          (fun c2 acc => subKeys t fuel c2 ++ acc) [],
        inBB lo hi k = true := by
  intro rest
  induction rest with
  | nil =>
      intro lo hi c _ _ hall k hk
      simp only [childBounds, List.all_cons, List.all_nil, Bool.and_true,
        Bool.and_eq_true] at hall
      simp only [List.map_nil, List.foldr, List.append_nil] at hk
      exact ih c lo hi hall k hk
  | cons e rest2 ihl =>
      intro lo hi c hrange hsort hall k hk
      simp only [childBounds, List.all_cons, Bool.and_eq_true] at hall
      obtain ⟨hwc, hall2⟩ := hall
      simp only [List.map_cons, List.foldr] at hk
      obtain ⟨hrange2, hsort2⟩ := range_tail hrange hsort
      rcases List.mem_append.mp hk with hk | hk
      · have hin := ih c lo (some e.1) hwc k hk
        apply inBB_mk
        · exact fun l0 hl0 => inBB_lo hin l0 hl0
        · intro hb hhb
          have hk1 : k < e.1 := inBB_hi hin e.1 rfl
          have he1 : e.1 < hb :=
            inBB_hi (hrange e (List.mem_cons_self _ _)) hb hhb
          omega
      · have hin := ihl (some e.1) hi e.2 hrange2 hsort2
          (by simpa only [List.all_eq_true] using hall2) k hk
        apply inBB_mk
        · intro l0 hl0
          have h1 : e.1 ≤ k := inBB_lo hin e.1 rfl
          have h2 : l0 ≤ e.1 :=
            inBB_lo (hrange e (List.mem_cons_self _ _)) l0 hl0
          omega
        · exact fun hb hhb => inBB_hi hin hb hhb

theorem subKeys_inB (t : BTree) : ∀ fuel pid lo hi,
    wfNode t fuel pid lo hi = true →
    ∀ k ∈ subKeys t fuel pid, inBB lo hi k = true := by
  intro fuel
  induction fuel with
  | zero =>
      intro pid lo hi hw
      simp [wfNode] at hw
  | succ fuel ih =>
      intro pid lo hi hw k hk
      simp only [wfNode] at hw
      simp only [subKeys] at hk
      cases hlk : BPM.ilookup pid t.pages with
      | none =>
          simp only [hlk] at hw
          exact absurd hw (by decide)
      | some node =>
          simp only [hlk] at hw hk
          cases node with
          | leaf l =>
              simp only [Bool.and_eq_true, List.all_eq_true] at hw
              rcases List.mem_map.mp hk with ⟨e, he, hek⟩
              exact hek ▸ hw.2 e he
          | internal n =>
              cases hent : n.entries with
              | nil =>
                  simp only [hent] at hw
                  exact absurd hw (by decide)
              | cons c0 rest =>
                  simp only [hent] at hw hk
                  simp only [Bool.and_eq_true, List.all_eq_true] at hw
                  obtain ⟨⟨hsort, hrange⟩, hall⟩ := hw
                  exact chain_inB t fuel ih rest lo hi c0.2 hrange hsort
                    (by simpa only [List.all_eq_true] using hall) k hk

theorem chain_search (t : BTree) (k : Nat) (fuel : Nat) :
    ∀ (rest : List (Nat × Int)) (lo hi : Option Nat) (c : Int),
      (∀ e ∈ rest, inBB lo hi e.1 = true) →
      sortedB (rest.map Prod.fst) = true →
      ((childBounds lo hi c rest).all
        (fun b => wfNode t fuel b.1 b.2.1 b.2.2)) = true →
      k ∈ (c :: rest.map Prod.snd).foldr
          (fun c2 acc => subKeys t fuel c2 ++ acc) [] →
      ∃ lo2 hi2, wfNode t fuel (searchChild k c rest) lo2 hi2 = true ∧
        k ∈ subKeys t fuel (searchChild k c rest) := by
  intro rest
  induction rest with
  | nil =>
      intro lo hi c _ _ hall hk
      simp only [childBounds, List.all_cons, List.all_nil, Bool.and_true,
        Bool.and_eq_true] at hall
      simp only [List.map_nil, List.foldr, List.append_nil] at hk
      exact ⟨lo, hi, hall, hk⟩
  | cons e rest2 ihl =>
      intro lo hi c hrange hsort hall hk
      simp only [childBounds, List.all_cons, Bool.and_eq_true] at hall
      obtain ⟨hwc, hall2⟩ := hall
      simp only [List.map_cons, List.foldr] at hk
      obtain ⟨hrange2, hsort2⟩ := range_tail hrange hsort
      rcases List.mem_append.mp hk with hk | hk
      · have hklt : k < e.1 :=
          inBB_hi (subKeys_inB t fuel c lo (some e.1) hwc k hk) e.1 rfl
        rw [searchChild, if_pos hklt]
        exact ⟨lo, some e.1, hwc, hk⟩
      · have hge : e.1 ≤ k :=
          inBB_lo (chain_inB t fuel (subKeys_inB t fuel) rest2 (some e.1) hi
            e.2 hrange2 hsort2
            (by simpa only [List.all_eq_true] using hall2) k hk) e.1 rfl
        rw [searchChild, if_neg (by omega)]
        exact ihl (some e.1) hi e.2 hrange2 hsort2
          (by simpa only [List.all_eq_true] using hall2) hk

theorem findLeaf_mem (t : BTree) (k : Nat) : ∀ fuel pid lo hi,
    wfNode t fuel pid lo hi = true →
    k ∈ subKeys t fuel pid →
    ∃ pid2 l, findLeaf t k fuel pid = some (pid2, l) ∧
      sortedB (l.entries.map Prod.fst) = true ∧
      k ∈ l.entries.map Prod.fst := by
  intro fuel
  induction fuel with
  | zero =>
      intro pid lo hi hw
      simp [wfNode] at hw
  | succ fuel ih =>
      intro pid lo hi hw hk
      simp only [wfNode] at hw
      simp only [subKeys] at hk
      cases hlk : BPM.ilookup pid t.pages with
      | none =>
          simp only [hlk] at hw
          exact absurd hw (by decide)
      | some node =>
          simp only [hlk] at hw hk
          cases node with
          | leaf l =>
              refine ⟨pid, l, ?_, ?_, hk⟩
              · simp [findLeaf, hlk]
              · simp only [Bool.and_eq_true] at hw
                exact hw.1
          | internal n =>
              cases hent : n.entries with
              | nil =>
                  simp only [hent] at hw
                  exact absurd hw (by decide)
              | cons c0 rest =>
                  simp only [hent] at hw hk
                  simp only [Bool.and_eq_true, List.all_eq_true] at hw
                  obtain ⟨⟨hsort, hrange⟩, hall⟩ := hw
                  obtain ⟨lo2, hi2, hw2, hk2⟩ :=
                    chain_search t k fuel rest lo hi c0.2 hrange hsort
                      (by simpa only [List.all_eq_true] using hall) hk
                  have hstep : findLeaf t k (fuel + 1) pid =
                      findLeaf t k fuel (searchChild k c0.2 rest) := by
                    simp [findLeaf, hlk, hent]
                  rw [hstep]
                  exact ih (searchChild k c0.2 rest) lo2 hi2 hw2 hk2

theorem leafInsert_dup (k v : Nat) : ∀ es : List (Nat × Nat),
    sortedB (es.map Prod.fst) = true → k ∈ es.map Prod.fst →
    leafInsert k v es = none := by
  intro es
  induction es with
  | nil =>
      intro _ hk
      cases hk
  | cons e rest ih =>
      intro hsort hk
      by_cases he : k = e.1
      · simp [leafInsert, he]
      · have hk2 : k ∈ rest.map Prod.fst := by
          simp only [List.map_cons, List.mem_cons] at hk
          rcases hk with h | h
          · exact absurd h he
          · exact h
        have hgt : e.1 < k :=
          sortedB_head_lt (by simpa using hsort) k hk2
        have htail : sortedB (rest.map Prod.fst) = true :=
          sortedB_tail (by simpa using hsort)
        simp [leafInsert, he, show ¬ k < e.1 by omega, ih htail hk2]

/-- C8: inserting a key already present in a well-formed tree returns
false and leaves the whole tree state (every node's entries, parent
pointers and next pointers) unchanged: the search reaches the leaf
holding the key, the leaf-level insert detects the duplicate, and both
the safe and the full-leaf paths return with no modification. -/
theorem c8_duplicate_insert_unchanged (t : BTree) (k v : Nat) (fuel : Nat)
    (hroot : ¬ t.rootPageId = BPM.invalidPid)
    (hwf : wfNode t fuel t.rootPageId none none = true)
    (hmem : k ∈ subKeys t fuel t.rootPageId) :
    insert t k v fuel = some (false, t) := by
  obtain ⟨pid2, l, hfind, hsort, hk⟩ :=
    findLeaf_mem t k fuel t.rootPageId none none hwf hmem
  have hdup := leafInsert_dup k v l.entries hsort hk
  rw [insert, if_neg hroot, hfind]
  dsimp only
  by_cases hsafe : l.entries.length < t.leafMax
  · rw [if_pos hsafe, hdup]
  · rw [if_neg hsafe, hdup]

theorem c8_duplicate_insert_unchanged_witness :
    insert c1Tree 3 99 3 = some (false, c1Tree) :=
  c8_duplicate_insert_unchanged c1Tree 3 99 3 (by decide) (by decide)
    (by decide)

end BPT

end TinyDb
